import Mathlib

/-!
Verification of the external-API resilience layer of the `picker` repository:
the result cache (`strategies/cache_utils.py`), the two rate limiters
(`strategies/rate_limiter.py`) and the API call monitor
(`strategies/api_monitoring.py`).

The Python code is shallowly embedded: pure computations become Lean
functions, the Django cache backend becomes an explicit store value threaded
through the functions, wall-clock time becomes an explicit rational
parameter, and operations on the backend that may raise become `Except`
computations.  A `try/except` block in the source is modelled by matching on
the `Except` result of the embedded body.
-/

namespace Picker

/-! ### Python values

Model of the Python value domain handled by the caching utilities: `None`,
booleans, integers, strings, lists, and string-keyed dicts.  These are the
values `_generate_cache_key` serializes natively with `json.dumps`; objects
serialized through their `__dict__` attribute are outside this domain.
-/

inductive PyVal where
  | none : PyVal
  | bool (b : Bool) : PyVal
  | int (n : Int) : PyVal
  | str (s : String) : PyVal
  | list (xs : List PyVal) : PyVal
  | dict (es : List (String × PyVal)) : PyVal

/-- Decimal digit characters, as produced by Python's `str`/`json.dumps` for
the digits `0`–`9` (any other input is unreachable at call sites). -/
def digitChar (d : Nat) : Char :=
  match d with
  | 0 => '0' | 1 => '1' | 2 => '2' | 3 => '3' | 4 => '4'
  | 5 => '5' | 6 => '6' | 7 => '7' | 8 => '8' | 9 => '9'
  | _ => '*'

/-- Fuel-driven big-endian decimal rendering of a natural number; with fuel
at least `n + 1` this agrees with the digits of `n` (see
`natCharsAux_eq_digits`). -/
def natCharsAux : Nat → Nat → List Char
  | 0, _ => []
  | _ + 1, 0 => []
  | fuel + 1, n + 1 => natCharsAux fuel ((n + 1) / 10) ++ [digitChar ((n + 1) % 10)]

/-- Decimal rendering of a natural number, as Python's `str`. -/
def natToChars (n : Nat) : List Char :=
  if n = 0 then ['0'] else natCharsAux (n + 1) n

/-- Decimal rendering of an integer, as Python's `str` and `json.dumps`. -/
def intToChars (i : Int) : List Char :=
  if i < 0 then '-' :: natToChars i.natAbs else natToChars i.toNat

/-- Lowercase hexadecimal digit characters, used for `\uXXXX` escapes. -/
def hexChar (d : Nat) : Char :=
  match d with
  | 0 => '0' | 1 => '1' | 2 => '2' | 3 => '3' | 4 => '4'
  | 5 => '5' | 6 => '6' | 7 => '7' | 8 => '8' | 9 => '9'
  | 10 => 'a' | 11 => 'b' | 12 => 'c' | 13 => 'd' | 14 => 'e' | 15 => 'f'
  | _ => '*'

/-- A `\uXXXX` escape for a code unit below `0x10000`. -/
def uEsc (n : Nat) : List Char :=
  ['\\', 'u', hexChar (n / 4096 % 16), hexChar (n / 256 % 16),
   hexChar (n / 16 % 16), hexChar (n % 16)]

/-- Escaping of one character as done by Python's `json.dumps` with its
default `ensure_ascii=True`: short escapes for the two-character sequences,
`\uXXXX` for other control or non-ASCII characters (surrogate pairs above
`0xFFFF`), the character itself otherwise. -/
def escChar (c : Char) : List Char :=
  let n := c.toNat
  if c = '"' then ['\\', '"']
  else if c = '\\' then ['\\', '\\']
  else if n = 8 then ['\\', 'b']
  else if n = 9 then ['\\', 't']
  else if n = 10 then ['\\', 'n']
  else if n = 12 then ['\\', 'f']
  else if n = 13 then ['\\', 'r']
  else if n < 32 then uEsc n
  else if n < 127 then [c]
  else if n < 65536 then uEsc n
  else uEsc (55296 + (n - 65536) / 1024) ++ uEsc (56320 + (n - 65536) % 1024)

/-- JSON rendering of a Python string: escaped and surrounded by quotes. -/
def jsonStr (s : String) : List Char :=
  '"' :: (s.data.map escChar).flatten ++ ['"']

/-- Lexicographic comparison of character lists by code point, with a strict
prefix below its extensions: Python's `<=` on strings, which `sorted` and
`sort_keys=True` use. -/
def charsLe : List Char → List Char → Bool
  | [], _ => true
  | _ :: _, [] => false
  | a :: as, b :: bs =>
      if a.toNat < b.toNat then true
      else if b.toNat < a.toNat then false
      else charsLe as bs

/-- Comparison of rendered dict entries by their key, modelling Python's
`sort_keys=True`. -/
def keyLe (a b : String × List Char) : Prop := charsLe a.1.data b.1.data = true

instance : DecidableRel keyLe := fun a b =>
  instDecidableEqBool (charsLe a.1.data b.1.data) true

/-- Rendered dict entries sorted by key (`json.dumps(..., sort_keys=True)`). -/
def sortPairs (l : List (String × List Char)) : List (String × List Char) :=
  List.insertionSort keyLe l

/-- JSON rendering of one dict entry, `"key": value`. -/
def renderPair (p : String × List Char) : List Char :=
  jsonStr p.1 ++ ':' :: ' ' :: p.2

/-- Joining of JSON items with `json.dumps`'s default `", "` separator. -/
def joinComma : List (List Char) → List Char
  | [] => []
  | [p] => p
  | p :: ps => p ++ ',' :: ' ' :: joinComma ps

mutual

/-- Model of `json.dumps(v, sort_keys=True, default=str)` on the embedded
value domain: `null`/`true`/`false`, decimal integers, escaped quoted
strings, `[...]` for lists in element order, `{...}` for dicts with entries
sorted by key. -/
def pyToJson : PyVal → List Char
  | PyVal.none => "null".data
  | PyVal.bool true => "true".data
  | PyVal.bool false => "false".data
  | PyVal.int n => intToChars n
  | PyVal.str s => jsonStr s
  | PyVal.list xs => '[' :: joinComma (listJson xs) ++ [']']
  | PyVal.dict es =>
      '{' :: joinComma ((sortPairs (entriesJson es)).map renderPair) ++ ['}']
termination_by structural v => v

/-- JSON renderings of the elements of a list, in order. -/
def listJson : List PyVal → List (List Char)
  | [] => []
  | v :: vs => pyToJson v :: listJson vs
termination_by structural l => l

/-- Keys paired with the JSON renderings of their values, in entry order. -/
def entriesJson : List (String × PyVal) → List (String × List Char)
  | [] => []
  | (k, v) :: es => (k, pyToJson v) :: entriesJson es
termination_by structural l => l

end

/-! ### Cache key generation (`_generate_cache_key`, cache_utils.py 98-146) -/

/-- Normalization of one positional argument (cache_utils.py 119-133):
dicts and lists are serialized with `json.dumps(arg, sort_keys=True)`;
primitives go through Python's `str`.  (The `hasattr(arg, '__dict__')`
branch for objects is outside the embedded value domain.) -/
def normalizeArg : PyVal → List Char
  | PyVal.dict es => pyToJson (PyVal.dict es)
  | PyVal.list xs => pyToJson (PyVal.list xs)
  | PyVal.none => "None".data
  | PyVal.bool true => "True".data
  | PyVal.bool false => "False".data
  | PyVal.int n => intToChars n
  | PyVal.str s => s.data

/-- Key parts before joining (cache_utils.py 135-140): the key namespace
`pfx`, the function name, the normalized positional arguments, and — when
keyword arguments are present — their dict serialized with sorted keys. -/
def keyParts (pfx fname : String) (args : List PyVal)
    (kwargs : List (String × PyVal)) : List (List Char) :=
  pfx.data :: fname.data ::
    (args.map normalizeArg ++
      if kwargs.isEmpty then [] else [pyToJson (PyVal.dict kwargs)])

/-- Joining of key parts with `':'.join` (cache_utils.py 141). -/
def joinColon : List (List Char) → List Char
  | [] => []
  | [p] => p
  | p :: ps => p ++ ':' :: joinColon ps

/-- Model of `_generate_cache_key(func, args, kwargs, key_prefix)`: the
string joined from the non-empty key parts (`filter(None, key_parts)`).
The source finally applies the fixed MD5 hexdigest to this string
(cache_utils.py 144); since the digest is a deterministic function of this
string, equal strings give equal cache keys, and the derivation's
distinctions are modelled at this pre-digest level. -/
def genKeyStr (fname : String) (args : List PyVal)
    (kwargs : List (String × PyVal)) (pfx : String) : List Char :=
  joinColon ((keyParts pfx fname args kwargs).filter (fun p => !p.isEmpty))

/-! ### Python value equality, well-formedness, and the sorted normal form

Python `==` on the embedded domain compares dicts as mappings — insertion
order is irrelevant — while every other constructor compares structurally.
`pyEquiv` is that relation; `pyWF` states the domain constraint that every
dict (at any depth) has distinct keys, which is automatic for values built
by the Python runtime; `pyNorm` sorts every dict's entries by key, giving a
normal form that characterizes `pyEquiv` on well-formed values.
-/

/-- Ordering of dict entries by key, before serialization of the values. -/
def entryLe (a b : String × PyVal) : Prop := charsLe a.1.data b.1.data = true

instance : DecidableRel entryLe := fun a b =>
  instDecidableEqBool (charsLe a.1.data b.1.data) true

/-- Dict entries sorted by key. -/
def sortEntries (es : List (String × PyVal)) : List (String × PyVal) :=
  List.insertionSort entryLe es

/-- Distinctness of a dict's keys, as Python dicts guarantee. -/
def nodupKeysB : List (String × PyVal) → Bool
  | [] => true
  | (k, _) :: es => !(es.any (fun e => decide (e.1 = k))) && nodupKeysB es

mutual

/-- Recursive well-formedness: every dict in the value has distinct keys. -/
def pyWF : PyVal → Bool
  | PyVal.none => true
  | PyVal.bool _ => true
  | PyVal.int _ => true
  | PyVal.str _ => true
  | PyVal.list xs => listWF xs
  | PyVal.dict es => nodupKeysB es && entriesWF es
termination_by structural v => v

/-- Well-formedness of every element of a list. -/
def listWF : List PyVal → Bool
  | [] => true
  | v :: vs => pyWF v && listWF vs
termination_by structural l => l

/-- Well-formedness of every value of an entry list. -/
def entriesWF : List (String × PyVal) → Bool
  | [] => true
  | (_, v) :: es => pyWF v && entriesWF es
termination_by structural l => l

end

mutual

/-- Normal form: every dict's entries sorted by key, at every depth. -/
def pyNorm : PyVal → PyVal
  | PyVal.none => PyVal.none
  | PyVal.bool b => PyVal.bool b
  | PyVal.int n => PyVal.int n
  | PyVal.str s => PyVal.str s
  | PyVal.list xs => PyVal.list (normList xs)
  | PyVal.dict es => PyVal.dict (sortEntries (normEntries es))
termination_by structural v => v

/-- Normal forms of the elements of a list. -/
def normList : List PyVal → List PyVal
  | [] => []
  | v :: vs => pyNorm v :: normList vs
termination_by structural l => l

/-- Normal forms of the values of an entry list. -/
def normEntries : List (String × PyVal) → List (String × PyVal)
  | [] => []
  | (k, v) :: es => (k, pyNorm v) :: normEntries es
termination_by structural l => l

end

mutual

/-- Python `==` on the embedded domain: structural equality except that
dicts compare as mappings — both have distinct keys and one entry list is,
up to reordering, keywise equal with `==`-equal values. -/
def pyEquiv : PyVal → PyVal → Prop
  | PyVal.none, PyVal.none => True
  | PyVal.bool a, PyVal.bool b => a = b
  | PyVal.int a, PyVal.int b => a = b
  | PyVal.str a, PyVal.str b => a = b
  | PyVal.list xs, PyVal.list ys => listEquiv xs ys
  | PyVal.dict es1, PyVal.dict es2 =>
      nodupKeysB es1 = true ∧ nodupKeysB es2 = true ∧
        ∃ es2', List.Perm es2 es2' ∧ entriesEquiv es1 es2'
  | _, _ => False
termination_by structural v => v

/-- Pointwise `==` on lists. -/
def listEquiv : List PyVal → List PyVal → Prop
  | [], [] => True
  | x :: xs, y :: ys => pyEquiv x y ∧ listEquiv xs ys
  | _, _ => False
termination_by structural l => l

/-- Pointwise keywise `==` on entry lists. -/
def entriesEquiv :
    List (String × PyVal) → List (String × PyVal) → Prop
  | [], [] => True
  | (k1, v1) :: es1, (k2, v2) :: es2 =>
      k1 = k2 ∧ pyEquiv v1 v2 ∧ entriesEquiv es1 es2
  | _, _ => False
termination_by structural l => l

end

/-! ### The Django cache backend, as an explicit store

A store maps keys to values with an absolute expiry instant; `set` with a
TTL records expiry `now + ttl`, and a `get` at time `t` hits exactly when
`t` is before the stored expiry (an entry is a guaranteed miss once its TTL
has elapsed).  Newer entries for a key shadow older ones.
-/

structure Store where
  entries : List (List Char × PyVal × ℚ)

def Store.empty : Store := ⟨[]⟩

/-- Model of `cache.get(key)` returning `some v` on a live entry and
`Option.none` when the key is absent or expired. -/
def storeGet (st : Store) (now : ℚ) (k : List Char) : Option PyVal :=
  match st.entries.find? (fun e => e.1 = k) with
  | Option.none => Option.none
  | some e => if now < e.2.2 then some e.2.1 else Option.none

/-- Model of `cache.set(key, v, ttl)`. -/
def storeSet (st : Store) (now : ℚ) (k : List Char) (v : PyVal) (ttl : ℚ) :
    Store :=
  ⟨(k, v, now + ttl) :: st.entries⟩

/-- Model of Python's `cache.get(key)` result: its default of `None` makes a
missing or expired entry indistinguishable from a stored `None`. -/
def pyGet (st : Store) (now : ℚ) (k : List Char) : PyVal :=
  (storeGet st now k).getD PyVal.none

/-! ### The `cached` decorator (cache_utils.py 48-95) -/

/-- Observable outcome of one invocation of a function wrapped by `cached`:
the returned value, the store afterwards, and whether the wrapped callable's
body was executed. -/
structure CacheOutcome where
  value : PyVal
  store : Store
  invoked : Bool

/-- Model of one invocation of `cached(ttl_seconds, key_prefix)(func)` with
a healthy backing store (cache_utils.py 50-85).  Key generation always
succeeds on the embedded value domain, so the `except` path at lines 54-60
is not taken.  The wrapper returns the cached value when `cache.get` gave a
value other than `None` (line 64); otherwise it executes the callable,
stores the result under the key with the configured TTL, and returns it. -/
def cachedCall (ttl : ℚ) (pfx : String)
    (f : List PyVal → List (String × PyVal) → PyVal) (fname : String)
    (args : List PyVal) (kwargs : List (String × PyVal)) (st : Store)
    (now : ℚ) : CacheOutcome :=
  let key := genKeyStr fname args kwargs pfx
  match pyGet st now key with
  | PyVal.none =>
      let result := f args kwargs
      ⟨result, storeSet st now key result ttl, true⟩
  | v => ⟨v, st, false⟩

/-- Model of the same wrapper over a backing store whose `get`/`set` may
raise (`failGet`/`failSet`).  In the source, `cache.get` at line 63 is NOT
inside a try block, so a raising `get` propagates to the caller
(`Except.error`); `cache.set` at line 74 is wrapped in try/except (lines
73-83), so a raising `set` is caught and the computed result is returned
uncached. -/
def cachedCallE (ttl : ℚ) (pfx : String)
    (f : List PyVal → List (String × PyVal) → PyVal) (fname : String)
    (args : List PyVal) (kwargs : List (String × PyVal))
    (failGet failSet : Bool) (st : Store) (now : ℚ) :
    Except Unit CacheOutcome :=
  let key := genKeyStr fname args kwargs pfx
  if failGet then Except.error ()
  else
    match pyGet st now key with
    | PyVal.none =>
        let result := f args kwargs
        if failSet then Except.ok ⟨result, st, true⟩
        else Except.ok ⟨result, storeSet st now key result ttl, true⟩
    | v => Except.ok ⟨v, st, false⟩

/-! ### The in-memory token-bucket `RateLimiter` (rate_limiter.py 26-64) -/

/-- State of the in-memory token bucket: the configured rate (capacity),
the current token count, and the instant of the last refill. -/
structure RLState where
  rate : ℚ
  tokens : ℚ
  last_update : ℚ

/-- Constructor state (rate_limiter.py 37-41): a full bucket. -/
def RLState.init (callsPerSecond : ℚ) (now : ℚ) : RLState :=
  ⟨callsPerSecond, callsPerSecond, now⟩

/-- Refill step (rate_limiter.py 47-52): tokens grow by `elapsed * rate`,
capped at `rate`, and the refill instant is recorded. -/
def rlRefill (s : RLState) (now : ℚ) : RLState :=
  { s with
    tokens := min s.rate (s.tokens + (now - s.last_update) * s.rate)
    last_update := now }

/-- One pass through the wrapper's critical section (rate_limiter.py 46-61):
refill, then either sleep `(1 - tokens) / rate` and zero the tokens (when
fewer than one token is available) or consume one token.  Returns the slept
duration and the state afterwards. -/
def rlStep (s : RLState) (now : ℚ) : ℚ × RLState :=
  let s1 := rlRefill s now
  if s1.tokens < 1 then ((1 - s1.tokens) / s1.rate, { s1 with tokens := 0 })
  else (0, { s1 with tokens := s1.tokens - 1 })

/-- Model of one invocation of a callable wrapped by the in-memory
`RateLimiter` (rate_limiter.py 43-64): the limiter step runs first, then the
callable is invoked once with the original argument; the wrapper returns the
callable's value unchanged.  The second component is the list of invocations
of the wrapped callable made during the call. -/
def rlCall {α β : Type} (s : RLState) (now : ℚ) (f : α → β) (x : α) :
    β × List α × ℚ × RLState :=
  let w := rlStep s now
  (f x, [x], w.1, w.2)

/-- Folding of successive wrapped invocations at the given instants. -/
def rlRun (s : RLState) : List ℚ → RLState
  | [] => s
  | t :: ts => rlRun (rlStep s t).2 ts

/-! ### The Redis-backed `RedisRateLimiter` (rate_limiter.py 67-128) -/

/-- Body of the try block of the shared sliding-window limiter
(rate_limiter.py 89-118) over a backing store whose `get`/`set` may raise.
`prev` is the stored call history for the wrapped function's key.  On
success the result is the slept duration and the new stored history; on
an exception (`cache.get` raising, `min` of an empty history when
`cps = 0`, or `cache.set` raising) the error carries the duration already
slept before the raise. -/
def redisInner (cps : Nat) (window : ℚ) (failGet failSet : Bool)
    (prev : Option (List ℚ)) (now : ℚ) : Except ℚ (ℚ × List ℚ) :=
  if failGet then Except.error 0
  else
    let calls0 := (prev.getD []).filter (fun t => now - t < window)
    if cps ≤ calls0.length then
      match calls0.min? with
      | Option.none => Except.error 0
      | some oldest =>
          let slp := window - (now - oldest)
          if 0 < slp then
            if failSet then Except.error slp
            else Except.ok (slp, [now + slp])
          else
            if failSet then Except.error 0
            else Except.ok (0, calls0 ++ [now])
    else
      if failSet then Except.error 0
      else Except.ok (0, calls0 ++ [now])

/-- Model of one invocation of a callable wrapped by `RedisRateLimiter`
(rate_limiter.py 83-128).  The entire store interaction is inside
`try/except` (lines 89-125), so an exception there is caught and the call
proceeds without rate limiting; the callable is then invoked once with the
original argument and its value is returned unchanged.  Returns the value,
the invocation list, the slept duration, and the stored history afterwards
(unchanged when the store failed). -/
def redisCall {α β : Type} (cps : Nat) (window : ℚ) (failGet failSet : Bool)
    (prev : Option (List ℚ)) (now : ℚ) (f : α → β) (x : α) :
    β × List α × ℚ × Option (List ℚ) :=
  match redisInner cps window failGet failSet prev now with
  | Except.ok (slp, calls) => (f x, [x], slp, some calls)
  | Except.error slp => (f x, [x], slp, prev)

/-! ### The `ApiCallMonitor` (api_monitoring.py 27-199) -/

/-- Statistics bucket stored per API name (api_monitoring.py 85-93; the
`start_time` field is pure metadata and is not modelled). -/
structure MonStats where
  total : Nat
  failed : Nat
  rate_limited : Nat
  latencies : List ℚ
deriving DecidableEq

/-- Empty statistics structure (`_get_empty_stats`). -/
def MonStats.empty : MonStats := ⟨0, 0, 0, []⟩

/-- Counter updates of `record_call` (api_monitoring.py 66-74): the total is
always incremented; the failure counter exactly when `success` is false; the
rate-limited counter exactly when the response code equals 429 (these two
are independent); a given latency is appended and the list truncated to its
last 100 entries (`stats['latencies'][-100:]`). -/
def recordUpdate (st : MonStats) (success : Bool) (code : Option Int)
    (lat : Option ℚ) : MonStats :=
  { total := st.total + 1
    failed := st.failed + (if success then 0 else 1)
    rate_limited := st.rate_limited + (if code = some 429 then 1 else 0)
    latencies :=
      match lat with
      | Option.none => st.latencies
      | some l =>
          (st.latencies ++ [l]).drop ((st.latencies ++ [l]).length - 100) }

/-- Fraction of rate-limited calls, `stats['rate_limited'] / stats['total']`
(api_monitoring.py 106). -/
def rlPct (st : MonStats) : ℚ := (st.rate_limited : ℚ) / (st.total : ℚ)

/-- Observable outcome of one `record_call`: the statistics stored by the
call (when the store write happened), whether the alert handler
`_handle_rate_limit_exceeded` fired (it logs the stats at error severity),
and the TTL of the alert-cooldown flag when one was stored. -/
structure MonOutcome where
  stats : Option MonStats
  alert : Bool
  cooldownTtl : Option Nat

/-- Alert decision of `_check_rate_limit_threshold` on the just-stored
statistics (api_monitoring.py 95-127): below 20 total calls nothing happens;
otherwise, when the rate-limited fraction strictly exceeds the threshold and
no cooldown flag is active, the alert fires and the cooldown flag is stored
with the fixed 300-second TTL (`_alert_cooldown_seconds`). -/
def checkThreshold (threshold : ℚ) (st : MonStats) (cooldownActive : Bool) :
    Bool × Option Nat :=
  if st.total < 20 then (false, Option.none)
  else if threshold < rlPct st then
    if cooldownActive then (false, Option.none) else (true, some 300)
  else (false, Option.none)

/-- Model of `record_call(success, response_code, latency_ms)` with a
healthy backing store (api_monitoring.py 46-83): the stored statistics for
this API name (`prev`, absent on the first call of a window) are updated,
stored back, and the alert condition is evaluated. -/
def recordCall (threshold : ℚ) (prev : Option MonStats)
    (cooldownActive : Bool) (success : Bool) (code : Option Int)
    (lat : Option ℚ) : MonOutcome :=
  let st1 := recordUpdate (prev.getD MonStats.empty) success code lat
  let c := checkThreshold threshold st1 cooldownActive
  ⟨some st1, c.1, c.2⟩

/-- Model of `record_call` over a backing store whose operations may raise.
The whole body is inside `try/except` (api_monitoring.py 61-83), so no
exception propagates; a raise during the stats `get` or `set` drops the
recording (nothing stored, no alert), while a raise on the cooldown `get`
or `set` happens after the stats were stored (the recording persists) and
only suppresses the alert handler. -/
def recordCallE (threshold : ℚ)
    (failStatsGet failStatsSet failCdGet failCdSet : Bool)
    (prev : Option MonStats) (cooldownActive : Bool) (success : Bool)
    (code : Option Int) (lat : Option ℚ) : Except Unit MonOutcome :=
  Except.ok
    (if failStatsGet then ⟨Option.none, false, Option.none⟩
     else
       let st1 := recordUpdate (prev.getD MonStats.empty) success code lat
       if failStatsSet then ⟨Option.none, false, Option.none⟩
       else if st1.total < 20 then ⟨some st1, false, Option.none⟩
       else if threshold < rlPct st1 then
         if failCdGet then ⟨some st1, false, Option.none⟩
         else if cooldownActive then ⟨some st1, false, Option.none⟩
         else if failCdSet then ⟨some st1, false, Option.none⟩
         else ⟨some st1, true, some 300⟩
       else ⟨some st1, false, Option.none⟩)

/-- Derived success rate of `get_stats` (api_monitoring.py 166-167):
`(total - failed) / total`, guarded to `0` for an empty bucket. -/
def successRate (st : MonStats) : ℚ :=
  if st.total = 0 then 0 else ((st.total : ℚ) - (st.failed : ℚ)) / (st.total : ℚ)

/-- Folding of a sequence of recorded calls into a statistics bucket,
starting from the empty bucket of a fresh window. -/
def recordMany (l : List (Bool × Option Int × Option ℚ)) : MonStats :=
  l.foldl (fun st c => recordUpdate st c.1 c.2.1 c.2.2) MonStats.empty

/-! ### Properties of the key ordering used by `sort_keys=True` -/

theorem char_toNat_inj {a b : Char} (h : a.toNat = b.toNat) : a = b :=
  Char.ext (UInt32.ext h)

theorem charsLe_cons {a b : Char} {as bs : List Char} :
    charsLe (a :: as) (b :: bs) = true ↔
      a.toNat < b.toNat ∨ (a.toNat = b.toNat ∧ charsLe as bs = true) := by
  show (if a.toNat < b.toNat then true
    else if b.toNat < a.toNat then false else charsLe as bs) = true ↔ _
  by_cases h1 : a.toNat < b.toNat
  · simp [h1]
  · by_cases h2 : b.toNat < a.toNat
    · simp [h1, h2]; omega
    · have h3 : a.toNat = b.toNat := by omega
      simp [h1, h2, h3]

theorem charsLe_total : ∀ a b : List Char, charsLe a b = true ∨ charsLe b a = true
  | [], _ => Or.inl rfl
  | _ :: _, [] => Or.inr rfl
  | a :: as, b :: bs => by
    rcases Nat.lt_trichotomy a.toNat b.toNat with h | h | h
    · exact Or.inl (charsLe_cons.mpr (Or.inl h))
    · rcases charsLe_total as bs with ih | ih
      · exact Or.inl (charsLe_cons.mpr (Or.inr ⟨h, ih⟩))
      · exact Or.inr (charsLe_cons.mpr (Or.inr ⟨h.symm, ih⟩))
    · exact Or.inr (charsLe_cons.mpr (Or.inl h))

theorem charsLe_antisymm : ∀ a b : List Char,
    charsLe a b = true → charsLe b a = true → a = b
  | [], [], _, _ => rfl
  | [], _ :: _, _, h => by cases h
  | _ :: _, [], h, _ => by cases h
  | a :: as, b :: bs, h1, h2 => by
    rcases charsLe_cons.mp h1 with h | ⟨he, ht⟩
    · rcases charsLe_cons.mp h2 with h' | ⟨he', _⟩
      · omega
      · omega
    · rcases charsLe_cons.mp h2 with h' | ⟨_, ht'⟩
      · omega
      · rw [char_toNat_inj he, charsLe_antisymm as bs ht ht']

theorem charsLe_trans : ∀ a b c : List Char,
    charsLe a b = true → charsLe b c = true → charsLe a c = true
  | [], _, _, _, _ => rfl
  | _ :: _, [], _, h, _ => by cases h
  | _ :: _, _ :: _, [], _, h => by cases h
  | a :: as, b :: bs, c :: cs, h1, h2 => by
    rcases charsLe_cons.mp h1 with h | ⟨he, ht⟩ <;>
      rcases charsLe_cons.mp h2 with h' | ⟨he', ht'⟩
    · exact charsLe_cons.mpr (Or.inl (h.trans h'))
    · exact charsLe_cons.mpr (Or.inl (he' ▸ h))
    · exact charsLe_cons.mpr (Or.inl (he ▸ h'))
    · exact charsLe_cons.mpr (Or.inr ⟨he.trans he', charsLe_trans as bs cs ht ht'⟩)

instance : IsTotal (String × List Char) keyLe :=
  ⟨fun a b => charsLe_total a.1.data b.1.data⟩

instance : IsTrans (String × List Char) keyLe :=
  ⟨fun _ _ _ h h' => charsLe_trans _ _ _ h h'⟩

instance : IsTotal (String × PyVal) entryLe :=
  ⟨fun a b => charsLe_total a.1.data b.1.data⟩

instance : IsTrans (String × PyVal) entryLe :=
  ⟨fun _ _ _ h h' => charsLe_trans _ _ _ h h'⟩

/-- Strict version of the key ordering, used to identify equal sorted
entry lists. -/
def keyLt (a b : String × List Char) : Prop := keyLe a b ∧ a.1 ≠ b.1

instance : IsAntisymm (String × List Char) keyLt :=
  ⟨fun _ _ h1 h2 =>
    absurd (String.ext (charsLe_antisymm _ _ h1.1 h2.1)) h1.2⟩

theorem sortPairs_perm (l : List (String × List Char)) : List.Perm (sortPairs l) l :=
  List.perm_insertionSort keyLe l

theorem sortPairs_sorted_strict {l : List (String × List Char)}
    (hn : (l.map Prod.fst).Nodup) : List.Sorted keyLt (sortPairs l) := by
  have hs : List.Sorted keyLe (sortPairs l) := List.sorted_insertionSort keyLe l
  have hn' : ((sortPairs l).map Prod.fst).Nodup :=
    (((sortPairs_perm l).map Prod.fst).nodup_iff).mpr hn
  have hne : List.Pairwise (fun a b : String × List Char => a.1 ≠ b.1)
      (sortPairs l) := List.pairwise_map.mp hn'
  exact hs.and hne

theorem sortPairs_eq_of_perm {l1 l2 : List (String × List Char)}
    (h : List.Perm l1 l2) (hn : (l1.map Prod.fst).Nodup) :
    sortPairs l1 = sortPairs l2 := by
  have hn2 : (l2.map Prod.fst).Nodup := ((h.map Prod.fst).nodup_iff).mp hn
  exact List.eq_of_perm_of_sorted
    ((sortPairs_perm l1).trans (h.trans (sortPairs_perm l2).symm))
    (sortPairs_sorted_strict hn) (sortPairs_sorted_strict hn2)

/-! ### Decomposition of the joined keys -/

/-- Contribution of the key parts before a given one to the joined key. -/
def colPre : List (List Char) → List Char
  | [] => []
  | p :: ps => p ++ ':' :: colPre ps

/-- Contribution of the key parts after a given one to the joined key. -/
def colTail : List (List Char) → List Char
  | [] => []
  | p :: ps => ':' :: joinColon (p :: ps)

theorem joinColon_cons (s : List Char) (l : List (List Char)) :
    joinColon (s :: l) = s ++ colTail l := by
  cases l with
  | nil => simp [joinColon, colTail]
  | cons p ps => rfl

theorem joinColon_split (P : List (List Char)) (s : List Char)
    (Q : List (List Char)) :
    joinColon (P ++ s :: Q) = colPre P ++ (s ++ colTail Q) := by
  induction P with
  | nil => simpa using joinColon_cons s Q
  | cons p ps ih =>
      have hne : ps ++ s :: Q ≠ [] := by simp
      have h1 : joinColon (p :: (ps ++ s :: Q)) = p ++ colTail (ps ++ s :: Q) :=
        joinColon_cons p (ps ++ s :: Q)
      have h2 : colTail (ps ++ s :: Q) = ':' :: joinColon (ps ++ s :: Q) := by
        cases hps : ps ++ s :: Q with
        | nil => exact absurd hps hne
        | cons r rs => rfl
      simp only [List.cons_append, h1, h2, ih, colPre, List.append_assoc,
        List.cons_append]

/-! ### Injectivity of the decimal rendering -/

theorem natCharsAux_eq_digits :
    ∀ fuel n, n < fuel →
      natCharsAux fuel n = ((Nat.digits 10 n).map digitChar).reverse := by
  intro fuel
  induction fuel with
  | zero => intro n h; omega
  | succ fuel ih =>
      intro n h
      match n with
      | 0 => simp [natCharsAux]
      | m + 1 =>
          have hd : Nat.digits 10 (m + 1) =
              (m + 1) % 10 :: Nat.digits 10 ((m + 1) / 10) :=
            Nat.digits_def' (by norm_num) (Nat.succ_pos m)
          have hlt : (m + 1) / 10 < fuel := by
            have := Nat.div_lt_self (Nat.succ_pos m) (by norm_num : 1 < 10)
            omega
          simp [natCharsAux, hd, ih _ hlt]

theorem digitChar_inj_lt :
    ∀ d1 < 10, ∀ d2 < 10, digitChar d1 = digitChar d2 → d1 = d2 := by decide

theorem digitChar_ne_comma : ∀ d < 10, digitChar d ≠ ',' := by decide

theorem digitChar_ne_dash : ∀ d < 10, digitChar d ≠ '-' := by decide

theorem map_digitChar_inj :
    ∀ l1 l2 : List Nat, (∀ x ∈ l1, x < 10) → (∀ x ∈ l2, x < 10) →
      l1.map digitChar = l2.map digitChar → l1 = l2
  | [], [], _, _, _ => rfl
  | [], _ :: _, _, _, h => by cases h
  | _ :: _, [], _, _, h => by cases h
  | a :: l1, b :: l2, h1, h2, h => by
      have hab : digitChar a = digitChar b := by
        simpa using congrArg (fun l => l.head?) h
      have ht : l1.map digitChar = l2.map digitChar := by
        simpa using congrArg (fun l => l.tail) h
      have ha : a = b :=
        digitChar_inj_lt a (h1 a (by simp)) b (h2 b (by simp)) hab
      have := map_digitChar_inj l1 l2 (fun x hx => h1 x (by simp [hx]))
        (fun x hx => h2 x (by simp [hx])) ht
      rw [ha, this]

theorem natToChars_eq_digits {n : Nat} (h : n ≠ 0) :
    natToChars n = ((Nat.digits 10 n).map digitChar).reverse := by
  simp only [natToChars, if_neg h]
  exact natCharsAux_eq_digits (n + 1) n (Nat.lt_succ_self n)

theorem mem_natToChars {c : Char} {n : Nat} (h : c ∈ natToChars n) :
    ∃ d < 10, c = digitChar d := by
  by_cases hn : n = 0
  · subst hn
    simp [natToChars] at h
    exact ⟨0, by norm_num, by rw [h]; rfl⟩
  · rw [natToChars_eq_digits hn] at h
    simp only [List.mem_reverse, List.mem_map] at h
    obtain ⟨d, hd, hdc⟩ := h
    exact ⟨d, Nat.digits_lt_base (by norm_num) hd, hdc.symm⟩

theorem eq_zero_of_natToChars_singleton {n : Nat} (h : natToChars n = ['0']) :
    n = 0 := by
  by_contra hn
  rw [natToChars_eq_digits hn] at h
  have hlen : ((Nat.digits 10 n).map digitChar).reverse.length = 1 := by
    rw [h]; rfl
  simp only [List.length_reverse, List.length_map] at hlen
  obtain ⟨d, hd⟩ := List.length_eq_one.mp hlen
  have hd10 : d < 10 := Nat.digits_lt_base (by norm_num) (by rw [hd]; simp)
  rw [hd] at h
  simp only [List.map_cons, List.map_nil, List.reverse_cons, List.reverse_nil,
    List.nil_append, List.cons.injEq, and_true] at h
  have : d = 0 := digitChar_inj_lt d hd10 0 (by norm_num) h
  subst this
  have h0 := Nat.ofDigits_digits 10 n
  rw [hd] at h0
  simp [Nat.ofDigits] at h0
  exact hn h0.symm

theorem natToChars_inj : ∀ m n : Nat, natToChars m = natToChars n → m = n := by
  intro m n h
  by_cases hm : m = 0 <;> by_cases hn : n = 0
  · omega
  · subst hm
    simp only [natToChars, if_pos rfl] at h
    rw [eq_zero_of_natToChars_singleton h.symm]
  · subst hn
    simp only [natToChars, if_pos rfl] at h
    rw [eq_zero_of_natToChars_singleton h]
  · rw [natToChars_eq_digits hm, natToChars_eq_digits hn] at h
    have h' := List.reverse_injective h
    have hmap := map_digitChar_inj _ _
      (fun x hx => Nat.digits_lt_base (by norm_num) hx)
      (fun x hx => Nat.digits_lt_base (by norm_num) hx) h'
    exact Nat.digits.injective 10 hmap

theorem natToChars_ne_nil (n : Nat) : natToChars n ≠ [] := by
  by_cases h : n = 0
  · subst h; simp [natToChars]
  · rw [natToChars_eq_digits h]
    simp [Nat.digits_ne_nil_iff_ne_zero, h]

theorem mem_intToChars {c : Char} {i : Int} (h : c ∈ intToChars i) :
    c = '-' ∨ ∃ d < 10, c = digitChar d := by
  simp only [intToChars] at h
  by_cases hi : i < 0
  · rw [if_pos hi] at h
    rcases List.mem_cons.mp h with h | h
    · exact Or.inl h
    · exact Or.inr (mem_natToChars h)
  · rw [if_neg hi] at h
    exact Or.inr (mem_natToChars h)

theorem intToChars_ne_comma {c : Char} {i : Int} (h : c ∈ intToChars i) :
    c ≠ ',' := by
  rcases mem_intToChars h with h | ⟨d, hd, hdc⟩
  · subst h; decide
  · subst hdc; exact digitChar_ne_comma d hd

theorem intToChars_ne_nil (i : Int) : intToChars i ≠ [] := by
  simp only [intToChars]
  by_cases hi : i < 0
  · simp [if_pos hi]
  · rw [if_neg hi]; exact natToChars_ne_nil _

theorem intToChars_inj : Function.Injective intToChars := by
  intro i j h
  simp only [intToChars] at h
  by_cases hi : i < 0 <;> by_cases hj : j < 0
  · rw [if_pos hi, if_pos hj] at h
    have := natToChars_inj _ _ (List.tail_eq_of_cons_eq h)
    omega
  · rw [if_pos hi, if_neg hj] at h
    exfalso
    have hm : '-' ∈ natToChars j.toNat := by rw [← h]; exact List.mem_cons_self _ _
    rcases mem_natToChars hm with ⟨d, hd, hdc⟩
    exact digitChar_ne_dash d hd hdc.symm
  · rw [if_neg hi, if_pos hj] at h
    exfalso
    have hm : '-' ∈ natToChars i.toNat := by rw [h]; exact List.mem_cons_self _ _
    rcases mem_natToChars hm with ⟨d, hd, hdc⟩
    exact digitChar_ne_dash d hd hdc.symm
  · rw [if_neg hi, if_neg hj] at h
    have := natToChars_inj _ _ h
    omega

/-! ### Unique splitting of comma-joined renderings -/

theorem split_unique : ∀ (a b u v : List Char), ',' ∉ a → ',' ∉ b →
    a ++ ',' :: u = b ++ ',' :: v → a = b ∧ u = v
  | [], [], _, _, _, _, h => ⟨rfl, List.tail_eq_of_cons_eq h⟩
  | [], c :: bs, u, v, _, hb, h => by
      exfalso
      have : c = ',' := (List.head_eq_of_cons_eq h).symm
      exact hb (this ▸ List.mem_cons_self c bs)
  | a :: as, [], u, v, ha, _, h => by
      exfalso
      have : a = ',' := List.head_eq_of_cons_eq h
      exact ha (this ▸ List.mem_cons_self a as)
  | a :: as, c :: bs, u, v, ha, hb, h => by
      have h1 : a = c := List.head_eq_of_cons_eq h
      have h2 := split_unique as bs u v (fun hm => ha (List.mem_cons_of_mem a hm))
        (fun hm => hb (List.mem_cons_of_mem c hm)) (List.tail_eq_of_cons_eq h)
      exact ⟨by rw [h1, h2.1], h2.2⟩

theorem joinComma_ne_nil {p : List Char} {ps : List (List Char)}
    (hp : p ≠ []) : joinComma (p :: ps) ≠ [] := by
  cases ps with
  | nil => simpa [joinComma] using hp
  | cons r rs => simp [joinComma]

theorem joinComma_inj : ∀ (P Q : List (List Char)),
    (∀ p ∈ P, p ≠ [] ∧ ',' ∉ p) → (∀ p ∈ Q, p ≠ [] ∧ ',' ∉ p) →
    joinComma P = joinComma Q → P = Q
  | [], [], _, _, _ => rfl
  | [], q :: Q, _, hQ, h =>
      absurd h.symm (joinComma_ne_nil (hQ q (List.mem_cons_self q Q)).1)
  | p :: P, [], hP, _, h =>
      absurd h (joinComma_ne_nil (hP p (List.mem_cons_self p P)).1)
  | [p], [q], _, _, h => by rw [show p = q from h]
  | [p], q :: t :: Q, hP, _, h => by
      exfalso
      have hc : ',' ∈ p := by
        have : p = q ++ ',' :: ' ' :: joinComma (t :: Q) := h
        rw [this]
        simp
      exact (hP p (List.mem_cons_self p [])).2 hc
  | p :: r :: P, [q], _, hQ, h => by
      exfalso
      have hc : ',' ∈ q := by
        have : p ++ ',' :: ' ' :: joinComma (r :: P) = q := h
        rw [← this]
        simp
      exact (hQ q (List.mem_cons_self q [])).2 hc
  | p :: r :: P, q :: t :: Q, hP, hQ, h => by
      have hs := split_unique p q (' ' :: joinComma (r :: P))
        (' ' :: joinComma (t :: Q)) (hP p (List.mem_cons_self p _)).2
        (hQ q (List.mem_cons_self q _)).2 h
      have htl : joinComma (r :: P) = joinComma (t :: Q) :=
        List.tail_eq_of_cons_eq hs.2
      have := joinComma_inj (r :: P) (t :: Q)
        (fun x hx => hP x (List.mem_cons_of_mem p hx))
        (fun x hx => hQ x (List.mem_cons_of_mem q hx)) htl
      rw [hs.1, this]

theorem listJson_map : ∀ l : List PyVal, listJson l = l.map pyToJson
  | [] => rfl
  | v :: vs => by rw [listJson, listJson_map vs, List.map_cons]

/-- Injectivity of the JSON rendering on integer lists: two different
integer sequences serialize differently. -/
theorem pyToJson_int_list_inj {xs ys : List Int}
    (h : pyToJson (PyVal.list (xs.map PyVal.int)) =
      pyToJson (PyVal.list (ys.map PyVal.int))) : xs = ys := by
  have hx : listJson (xs.map PyVal.int) = xs.map intToChars := by
    rw [listJson_map, List.map_map]; rfl
  have hy : listJson (ys.map PyVal.int) = ys.map intToChars := by
    rw [listJson_map, List.map_map]; rfl
  have h1 : '[' :: joinComma (xs.map intToChars) ++ [']'] =
      '[' :: joinComma (ys.map intToChars) ++ [']'] := by
    have := h
    rw [pyToJson, pyToJson, hx, hy] at this
    exact this
  have h2 : joinComma (xs.map intToChars) = joinComma (ys.map intToChars) :=
    List.append_cancel_right (List.tail_eq_of_cons_eq h1)
  have h3 := joinComma_inj _ _
    (fun p hp => by
      rcases List.mem_map.mp hp with ⟨n, _, rfl⟩
      exact ⟨intToChars_ne_nil n, fun hc => intToChars_ne_comma hc rfl⟩)
    (fun p hp => by
      rcases List.mem_map.mp hp with ⟨n, _, rfl⟩
      exact ⟨intToChars_ne_nil n, fun hc => intToChars_ne_comma hc rfl⟩)
    h2
  exact List.map_injective_iff.mpr intToChars_inj h3

/-! ### Key stability under dict reordering -/

theorem entriesJson_map : ∀ es : List (String × PyVal),
    entriesJson es = es.map (fun p => (p.1, pyToJson p.2))
  | [] => rfl
  | (k, v) :: es => by rw [entriesJson, entriesJson_map es, List.map_cons]

/-- Dicts holding the same key-value entries in different insertion order
(with no duplicate keys) serialize identically under `sort_keys=True`. -/
theorem pyToJson_dict_perm {es1 es2 : List (String × PyVal)}
    (h : List.Perm es1 es2) (hn : (es1.map Prod.fst).Nodup) :
    pyToJson (PyVal.dict es1) = pyToJson (PyVal.dict es2) := by
  have hsort : sortPairs (entriesJson es1) = sortPairs (entriesJson es2) := by
    apply sortPairs_eq_of_perm
    · rw [entriesJson_map, entriesJson_map]
      exact h.map _
    · rw [entriesJson_map, List.map_map]
      exact hn
  rw [pyToJson, pyToJson, hsort]

/-- Equality of call arguments up to reordering of dict entries: either the
same value, or two dicts holding the same entries in different insertion
order (Python dicts cannot hold duplicate keys). -/
def argEquiv (a b : PyVal) : Prop :=
  a = b ∨ ∃ es1 es2, a = PyVal.dict es1 ∧ b = PyVal.dict es2 ∧
    List.Perm es1 es2 ∧ (es1.map Prod.fst).Nodup

theorem normalizeArg_equiv {a b : PyVal} (h : argEquiv a b) :
    normalizeArg a = normalizeArg b := by
  rcases h with rfl | ⟨es1, es2, rfl, rfl, hp, hn⟩
  · rfl
  · show pyToJson (PyVal.dict es1) = pyToJson (PyVal.dict es2)
    exact pyToJson_dict_perm hp hn

theorem map_normalizeArg_eq {args1 args2 : List PyVal}
    (h : List.Forall₂ argEquiv args1 args2) :
    args1.map normalizeArg = args2.map normalizeArg := by
  induction h with
  | nil => rfl
  | cons h1 _ ih => simp [normalizeArg_equiv h1, ih]

/-- The serialized keyword-argument part of the key: present exactly when
keyword arguments were passed. -/
def kwTail (kwargs : List (String × PyVal)) : List (List Char) :=
  if kwargs.isEmpty then [] else [pyToJson (PyVal.dict kwargs)]

theorem keyParts_eq (pfx fname : String) (args : List PyVal)
    (kwargs : List (String × PyVal)) :
    keyParts pfx fname args kwargs =
      pfx.data :: fname.data :: (args.map normalizeArg ++ kwTail kwargs) := rfl

theorem kwTail_perm {k1 k2 : List (String × PyVal)} (h : List.Perm k1 k2)
    (hn : (k1.map Prod.fst).Nodup) : kwTail k1 = kwTail k2 := by
  have hlen : k1.length = k2.length := h.length_eq
  by_cases he : k1.isEmpty
  · have : k2.isEmpty := by
      cases k1 <;> cases k2 <;> simp_all [List.isEmpty]
    rw [kwTail, kwTail, if_pos he, if_pos this]
  · have : ¬ k2.isEmpty := by
      cases k1 <;> cases k2 <;> simp_all [List.isEmpty]
    rw [kwTail, kwTail, if_neg he, if_neg this, pyToJson_dict_perm h hn]

/-- Cache keys are invariant under reordering dict arguments' entries and
dict keyword arguments' entries (a special case of `genKeyStr_pyEquiv`
below). -/
theorem genKeyStr_congr {args1 args2 : List PyVal}
    {kwargs1 kwargs2 : List (String × PyVal)} (pfx fname : String)
    (hargs : List.Forall₂ argEquiv args1 args2)
    (hkw : List.Perm kwargs1 kwargs2)
    (hkwn : (kwargs1.map Prod.fst).Nodup) :
    genKeyStr fname args1 kwargs1 pfx = genKeyStr fname args2 kwargs2 pfx := by
  unfold genKeyStr
  rw [keyParts_eq, keyParts_eq, map_normalizeArg_eq hargs, kwTail_perm hkw hkwn]

/-! ### Positional decomposition of the generated key -/

theorem filter_keyParts (pfx fname : String) (ctx : List PyVal) (v : PyVal)
    (ctx2 : List PyVal) (kwargs : List (String × PyVal))
    (hv : normalizeArg v ≠ []) :
    (keyParts pfx fname (ctx ++ v :: ctx2) kwargs).filter
        (fun p => !p.isEmpty) =
      ((pfx.data :: fname.data :: ctx.map normalizeArg).filter
        (fun p => !p.isEmpty)) ++
      normalizeArg v ::
        ((ctx2.map normalizeArg ++ kwTail kwargs).filter
          (fun p => !p.isEmpty)) := by
  rw [keyParts_eq, List.map_append, List.map_cons]
  have hshape : pfx.data :: fname.data ::
      ((ctx.map normalizeArg ++ normalizeArg v :: ctx2.map normalizeArg) ++
        kwTail kwargs) =
      (pfx.data :: fname.data :: ctx.map normalizeArg) ++
        normalizeArg v :: (ctx2.map normalizeArg ++ kwTail kwargs) := by
    simp [List.append_assoc]
  have hpos : (!(normalizeArg v).isEmpty) = true := by
    cases hnv : normalizeArg v with
    | nil => exact absurd hnv hv
    | cons c cs => rfl
  rw [hshape, List.filter_append]
  congr 1
  exact List.filter_cons_of_pos hpos

theorem genKeyStr_decomp (pfx fname : String) (ctx : List PyVal) (v : PyVal)
    (ctx2 : List PyVal) (kwargs : List (String × PyVal))
    (hv : normalizeArg v ≠ []) :
    genKeyStr fname (ctx ++ v :: ctx2) kwargs pfx =
      colPre ((pfx.data :: fname.data :: ctx.map normalizeArg).filter
          (fun p => !p.isEmpty)) ++
      (normalizeArg v ++
        colTail ((ctx2.map normalizeArg ++ kwTail kwargs).filter
          (fun p => !p.isEmpty))) := by
  unfold genKeyStr
  rw [filter_keyParts pfx fname ctx v ctx2 kwargs hv, joinColon_split]

theorem normalizeArg_list_ne_nil (xs : List PyVal) :
    normalizeArg (PyVal.list xs) ≠ [] := by
  show pyToJson (PyVal.list xs) ≠ []
  rw [pyToJson]
  simp

/-- Distinct integer sequences in the same argument position give distinct
generated keys (a special case of `genKeyStr_list_ne_general` below). -/
theorem genKeyStr_list_ne {xs ys : List Int} (pfx fname : String)
    (ctx ctx2 : List PyVal) (kwargs : List (String × PyVal))
    (hne : xs ≠ ys) :
    genKeyStr fname (ctx ++ PyVal.list (xs.map PyVal.int) :: ctx2) kwargs pfx ≠
    genKeyStr fname (ctx ++ PyVal.list (ys.map PyVal.int) :: ctx2) kwargs pfx := by
  intro h
  rw [genKeyStr_decomp pfx fname ctx _ ctx2 kwargs (normalizeArg_list_ne_nil _),
    genKeyStr_decomp pfx fname ctx _ ctx2 kwargs (normalizeArg_list_ne_nil _)]
    at h
  have h1 := List.append_cancel_left h
  have h2 := List.append_cancel_right h1
  exact hne (pyToJson_int_list_inj h2)

/-! ### Key collisions caused by `filter(None)` and the `':'` delimiter -/

theorem data_ne_nil_of_ne {s : String} (h : s ≠ "") : s.data ≠ [] := by
  intro hd
  exact h (String.ext hd)

theorem filterNE_cons {a : List Char} (l : List (List Char)) (h : a ≠ []) :
    List.filter (fun p => !p.isEmpty) (a :: l) =
      a :: List.filter (fun p => !p.isEmpty) l := by
  apply List.filter_cons_of_pos
  cases ha : a with
  | nil => exact absurd ha h
  | cons c cs => rfl

/-- An empty-string argument contributes an empty normalized part, which
`filter(None, key_parts)` drops: `f('')` and `f()` share one key. -/
theorem genKeyStr_drop_empty_str (pfx fname : String)
    (kwargs : List (String × PyVal)) :
    genKeyStr fname [PyVal.str ""] kwargs pfx =
      genKeyStr fname [] kwargs pfx := by
  unfold genKeyStr
  congr 1

/-- Because parts are joined with `':'`, the two-argument call `f(s, t)`
and the one-argument call `f(s + ':' + t)` generate the same key (for
non-empty `s`, `t`). -/
theorem genKeyStr_colon_merge (pfx fname s t : String)
    (kwargs : List (String × PyVal)) (hs : s ≠ "") (ht : t ≠ "") :
    genKeyStr fname [PyVal.str s, PyVal.str t] kwargs pfx =
      genKeyStr fname [PyVal.str (s ++ ":" ++ t)] kwargs pfx := by
  have hsd : s.data ≠ [] := data_ne_nil_of_ne hs
  have htd : t.data ≠ [] := data_ne_nil_of_ne ht
  have hmerged : (s ++ ":" ++ t).data = s.data ++ ':' :: t.data := by
    simp [String.data_append]
  have hmd : s.data ++ ':' :: t.data ≠ [] := by simp
  unfold genKeyStr
  rw [keyParts_eq, keyParts_eq]
  have e1 : [PyVal.str s, PyVal.str t].map normalizeArg = [s.data, t.data] :=
    rfl
  have e2 : [PyVal.str (s ++ ":" ++ t)].map normalizeArg =
      [s.data ++ ':' :: t.data] := by
    show [(s ++ ":" ++ t).data] = [s.data ++ ':' :: t.data]
    rw [hmerged]
  rw [e1, e2]
  show joinColon (List.filter _
      ([pfx.data, fname.data] ++ (s.data :: t.data :: kwTail kwargs))) =
    joinColon (List.filter _
      ([pfx.data, fname.data] ++ ((s.data ++ ':' :: t.data) :: kwTail kwargs)))
  rw [List.filter_append, List.filter_append, filterNE_cons _ hsd,
    filterNE_cons _ htd, filterNE_cons _ hmd]
  rw [joinColon_split, joinColon_split]
  have hct : colTail (t.data ::
      List.filter (fun p => !p.isEmpty) (kwTail kwargs)) =
      ':' :: (t.data ++
        colTail (List.filter (fun p => !p.isEmpty) (kwTail kwargs))) := by
    show ':' :: joinColon (t.data :: _) = _
    rw [joinColon_cons]
  rw [hct]
  simp [List.append_assoc]

/-! ### Entry sorting: permutation invariance and commutation with maps -/

theorem nodupKeysB_iff : ∀ es : List (String × PyVal),
    nodupKeysB es = true ↔ (es.map Prod.fst).Nodup
  | [] => by simp [nodupKeysB]
  | (k, v) :: es => by
      rw [List.map_cons, List.nodup_cons, ← nodupKeysB_iff es]
      show (!(es.any fun e => decide (e.1 = k)) && nodupKeysB es) = true ↔ _
      rw [Bool.and_eq_true, Bool.not_eq_true', List.any_eq_false]
      constructor
      · rintro ⟨h1, h2⟩
        refine ⟨fun hk => ?_, h2⟩
        rcases List.mem_map.mp hk with ⟨p, hp, hpk⟩
        exact h1 p hp (decide_eq_true hpk)
      · rintro ⟨h1, h2⟩
        refine ⟨fun p hp hd => ?_, h2⟩
        exact h1 (List.mem_map.mpr ⟨p, hp, of_decide_eq_true hd⟩)

/-- Strict version of the entry ordering. -/
def entryLt (a b : String × PyVal) : Prop := entryLe a b ∧ a.1 ≠ b.1

instance : IsAntisymm (String × PyVal) entryLt :=
  ⟨fun _ _ h1 h2 =>
    absurd (String.ext (charsLe_antisymm _ _ h1.1 h2.1)) h1.2⟩

theorem sortEntries_perm (l : List (String × PyVal)) :
    List.Perm (sortEntries l) l :=
  List.perm_insertionSort entryLe l

theorem sortEntries_sorted_strict {l : List (String × PyVal)}
    (hn : (l.map Prod.fst).Nodup) : List.Sorted entryLt (sortEntries l) := by
  have hs : List.Sorted entryLe (sortEntries l) :=
    List.sorted_insertionSort entryLe l
  have hn' : ((sortEntries l).map Prod.fst).Nodup :=
    (((sortEntries_perm l).map Prod.fst).nodup_iff).mpr hn
  have hne : List.Pairwise (fun a b : String × PyVal => a.1 ≠ b.1)
      (sortEntries l) := List.pairwise_map.mp hn'
  exact hs.and hne

theorem sortEntries_eq_of_perm {l1 l2 : List (String × PyVal)}
    (h : List.Perm l1 l2) (hn : (l1.map Prod.fst).Nodup) :
    sortEntries l1 = sortEntries l2 := by
  have hn2 : (l2.map Prod.fst).Nodup := ((h.map Prod.fst).nodup_iff).mp hn
  exact List.eq_of_perm_of_sorted
    ((sortEntries_perm l1).trans (h.trans (sortEntries_perm l2).symm))
    (sortEntries_sorted_strict hn) (sortEntries_sorted_strict hn2)

theorem map_orderedInsert_keyed {β : Type} (f : (String × PyVal) → String × β)
    (r' : (String × β) → (String × β) → Prop) [DecidableRel r']
    (hf : ∀ a b, r' (f a) (f b) ↔ entryLe a b) :
    ∀ (a : String × PyVal) (l : List (String × PyVal)),
      (List.orderedInsert entryLe a l).map f =
        List.orderedInsert r' (f a) (l.map f)
  | a, [] => rfl
  | a, b :: l => by
      by_cases h : entryLe a b
      · rw [List.orderedInsert, if_pos h, List.map_cons, List.map_cons,
          List.orderedInsert, if_pos ((hf a b).mpr h)]
      · rw [List.orderedInsert, if_neg h, List.map_cons, List.map_cons,
          List.orderedInsert, if_neg (fun hc => h ((hf a b).mp hc)),
          map_orderedInsert_keyed f r' hf a l]

theorem map_insertionSort_keyed {β : Type} (f : (String × PyVal) → String × β)
    (r' : (String × β) → (String × β) → Prop) [DecidableRel r']
    (hf : ∀ a b, r' (f a) (f b) ↔ entryLe a b) :
    ∀ l : List (String × PyVal),
      (List.insertionSort entryLe l).map f =
        List.insertionSort r' (l.map f)
  | [] => rfl
  | a :: l => by
      have e1 : List.insertionSort entryLe (a :: l) =
          List.orderedInsert entryLe a (List.insertionSort entryLe l) := rfl
      rw [e1, List.map_cons]
      have e2 : List.insertionSort r' (f a :: List.map f l) =
          List.orderedInsert r' (f a)
            (List.insertionSort r' (List.map f l)) := rfl
      rw [e2, map_orderedInsert_keyed f r' hf a (List.insertionSort entryLe l),
        map_insertionSort_keyed f r' hf l]

/-- Serializing after key-sorting the entries is the key-sorting of the
serialized entries: `json.dumps(..., sort_keys=True)` on a dict. -/
theorem sortPairs_entriesJson (es : List (String × PyVal)) :
    sortPairs (entriesJson es) =
      entriesJson (sortEntries es) := by
  rw [entriesJson_map, entriesJson_map]
  exact (map_insertionSort_keyed (fun p => (p.1, pyToJson p.2)) keyLe
    (fun _ _ => Iff.rfl) es).symm

theorem normEntries_map : ∀ es : List (String × PyVal),
    normEntries es = es.map (fun p => (p.1, pyNorm p.2))
  | [] => rfl
  | (k, v) :: es => by rw [normEntries, normEntries_map es, List.map_cons]

theorem normList_map : ∀ xs : List PyVal, normList xs = xs.map pyNorm
  | [] => rfl
  | v :: vs => by rw [normList, normList_map vs, List.map_cons]

/-- Key-sorting commutes with normalizing the entry values. -/
theorem sortEntries_normEntries (es : List (String × PyVal)) :
    sortEntries (normEntries es) = normEntries (sortEntries es) := by
  rw [normEntries_map, normEntries_map]
  exact (map_insertionSort_keyed (fun p => (p.1, pyNorm p.2)) entryLe
    (fun _ _ => Iff.rfl) es).symm

theorem sortPairs_idem (l : List (String × List Char)) :
    sortPairs (sortPairs l) = sortPairs l :=
  List.Sorted.insertionSort_eq (List.sorted_insertionSort keyLe l)

theorem normEntries_fst (es : List (String × PyVal)) :
    (normEntries es).map Prod.fst = es.map Prod.fst := by
  rw [normEntries_map, List.map_map]
  rfl

/-! ### Well-formedness bookkeeping -/

theorem listWF_mem : ∀ {xs : List PyVal}, listWF xs = true →
    ∀ {x : PyVal}, x ∈ xs → pyWF x = true := by
  intro xs
  induction xs with
  | nil => intro _ x hx; cases hx
  | cons a l ih =>
      intro h x hx
      rw [show listWF (a :: l) = (pyWF a && listWF l) from rfl,
        Bool.and_eq_true] at h
      rcases List.mem_cons.mp hx with rfl | hx
      · exact h.1
      · exact ih h.2 hx

theorem entriesWF_iff : ∀ es : List (String × PyVal),
    entriesWF es = true ↔ ∀ p ∈ es, pyWF p.2 = true
  | [] => by simp [entriesWF]
  | (k, v) :: es => by
      rw [show entriesWF ((k, v) :: es) = (pyWF v && entriesWF es) from rfl,
        Bool.and_eq_true, entriesWF_iff es]
      constructor
      · rintro ⟨h1, h2⟩ p hp
        rcases List.mem_cons.mp hp with rfl | hp
        · exact h1
        · exact h2 p hp
      · intro h
        exact ⟨h (k, v) (List.mem_cons_self _ _),
          fun p hp => h p (List.mem_cons_of_mem _ hp)⟩

theorem entriesWF_perm {es es' : List (String × PyVal)}
    (hp : List.Perm es es') (h : entriesWF es = true) :
    entriesWF es' = true := by
  rw [entriesWF_iff] at h ⊢
  exact fun p hpm => h p (hp.symm.subset hpm)

theorem entriesEquiv_length : ∀ {es1 es2 : List (String × PyVal)},
    entriesEquiv es1 es2 → es1.length = es2.length := by
  intro es1
  induction es1 with
  | nil =>
      intro es2 h
      cases es2 with
      | nil => rfl
      | cons b l2 => exact False.elim h
  | cons a l1 ih =>
      intro es2 h
      obtain ⟨k1, v1⟩ := a
      cases es2 with
      | nil => exact False.elim h
      | cons b l2 =>
          obtain ⟨k2, v2⟩ := b
          have h' : k1 = k2 ∧ pyEquiv v1 v2 ∧ entriesEquiv l1 l2 := h
          simpa using ih h'.2.2

/-! ### Serialization is invariant under normalization -/

theorem sizeOf_mem_list {x : PyVal} {xs : List PyVal} (h : x ∈ xs) :
    sizeOf x < sizeOf (PyVal.list xs) := by
  have h1 := List.sizeOf_lt_of_mem h
  have h2 : sizeOf (PyVal.list xs) = 1 + sizeOf xs := by simp
  omega

theorem sizeOf_mem_dict {p : String × PyVal} {es : List (String × PyVal)}
    (h : p ∈ es) : sizeOf p.2 < sizeOf (PyVal.dict es) := by
  have h1 := List.sizeOf_lt_of_mem h
  obtain ⟨k, v⟩ := p
  have h2 : sizeOf ((k, v) : String × PyVal) = 1 + sizeOf k + sizeOf v := by
    simp
  have h3 : sizeOf (PyVal.dict es) = 1 + sizeOf es := by simp
  simp only at h2 ⊢
  omega

theorem sizeOf_pyVal_pos (v : PyVal) : 0 < sizeOf v := by
  cases v <;> simp

theorem pyToJson_list_eq (l : List PyVal) :
    pyToJson (PyVal.list l) = '[' :: joinComma (listJson l) ++ [']'] := rfl

theorem pyToJson_dict_eq (l : List (String × PyVal)) :
    pyToJson (PyVal.dict l) =
      '{' :: joinComma ((sortPairs (entriesJson l)).map renderPair) ++ ['}'] :=
  rfl

theorem pyToJson_norm_aux :
    ∀ (n : Nat) (v : PyVal), sizeOf v ≤ n →
      pyToJson (pyNorm v) = pyToJson v := by
  intro n
  induction n with
  | zero =>
      intro v hv
      exact absurd hv (by have := sizeOf_pyVal_pos v; omega)
  | succ n ih =>
      intro v hv
      cases v with
      | none => rfl
      | bool b => cases b <;> rfl
      | int m => rfl
      | str s => rfl
      | list xs =>
          show pyToJson (PyVal.list (normList xs)) = pyToJson (PyVal.list xs)
          rw [pyToJson_list_eq, pyToJson_list_eq, listJson_map, listJson_map,
            normList_map, List.map_map]
          have : ∀ x ∈ xs, (pyToJson ∘ pyNorm) x = pyToJson x := by
            intro x hx
            have hs : sizeOf x < sizeOf (PyVal.list xs) := sizeOf_mem_list hx
            exact ih x (by omega)
          rw [List.map_congr_left this]
      | dict es =>
          show pyToJson (PyVal.dict (sortEntries (normEntries es))) =
            pyToJson (PyVal.dict es)
          rw [pyToJson_dict_eq, pyToJson_dict_eq, ← sortPairs_entriesJson,
            sortPairs_idem]
          have he : entriesJson (normEntries es) = entriesJson es := by
            rw [entriesJson_map, entriesJson_map, normEntries_map,
              List.map_map]
            refine List.map_congr_left ?_
            intro p hp
            obtain ⟨k, w⟩ := p
            have hs : sizeOf w < sizeOf (PyVal.dict es) :=
              sizeOf_mem_dict (p := (k, w)) hp
            show (k, pyToJson (pyNorm w)) = (k, pyToJson w)
            rw [ih w (by omega)]
          rw [he]

/-- Normalizing a value does not change its serialization: `json.dumps`
with `sort_keys=True` already sorts every dict. -/
theorem pyToJson_norm (v : PyVal) : pyToJson (pyNorm v) = pyToJson v :=
  pyToJson_norm_aux (sizeOf v) v le_rfl

/-! ### Python equality characterized by the sorted normal form -/

theorem listEquiv_norm_aux (N : Nat)
    (rec : ∀ x y, sizeOf x < N → pyEquiv x y → pyNorm x = pyNorm y) :
    ∀ xs ys, (∀ x ∈ xs, sizeOf x < N) → listEquiv xs ys →
      normList xs = normList ys
  | [], [], _, _ => rfl
  | [], _ :: _, _, h => False.elim h
  | _ :: _, [], _, h => False.elim h
  | x :: xs, y :: ys, hb, h => by
      have h' : pyEquiv x y ∧ listEquiv xs ys := h
      rw [normList, normList, rec x y (hb x (List.mem_cons_self _ _)) h'.1,
        listEquiv_norm_aux N rec xs ys
          (fun z hz => hb z (List.mem_cons_of_mem _ hz)) h'.2]

theorem entriesEquiv_norm_aux (N : Nat)
    (rec : ∀ x y, sizeOf x < N → pyEquiv x y → pyNorm x = pyNorm y) :
    ∀ es1 es2, (∀ p ∈ es1, sizeOf p.2 < N) → entriesEquiv es1 es2 →
      normEntries es1 = normEntries es2
  | [], [], _, _ => rfl
  | [], _ :: _, _, h => False.elim h
  | (_, _) :: _, [], _, h => False.elim h
  | (k1, v1) :: es1, (k2, v2) :: es2, hb, h => by
      have h' : k1 = k2 ∧ pyEquiv v1 v2 ∧ entriesEquiv es1 es2 := h
      rw [normEntries, normEntries, h'.1,
        rec v1 v2 (hb (k1, v1) (List.mem_cons_self _ _)) h'.2.1,
        entriesEquiv_norm_aux N rec es1 es2
          (fun p hp => hb p (List.mem_cons_of_mem _ hp)) h'.2.2]

theorem pyEquiv_norm_aux :
    ∀ (n : Nat) (x y : PyVal), sizeOf x ≤ n → pyEquiv x y →
      pyNorm x = pyNorm y := by
  intro n
  induction n with
  | zero =>
      intro x _ hx
      exact absurd hx (by have := sizeOf_pyVal_pos x; omega)
  | succ n ih =>
      intro x y hx h
      cases x with
      | none => cases y <;> first | rfl | exact False.elim h
      | bool a =>
          cases y <;> try exact False.elim h
          exact congrArg PyVal.bool (h : a = _)
      | int a =>
          cases y <;> try exact False.elim h
          exact congrArg PyVal.int (h : a = _)
      | str a =>
          cases y <;> try exact False.elim h
          exact congrArg PyVal.str (h : a = _)
      | list xs =>
          cases y with
          | list ys =>
              have h' : listEquiv xs ys := h
              show PyVal.list (normList xs) = PyVal.list (normList ys)
              rw [listEquiv_norm_aux (sizeOf (PyVal.list xs))
                (fun a b hs => ih a b (by omega))
                xs ys (fun z hz => sizeOf_mem_list hz) h']
          | none => exact False.elim h
          | bool b => exact False.elim h
          | int m => exact False.elim h
          | str s => exact False.elim h
          | dict es => exact False.elim h
      | dict es1 =>
          cases y with
          | dict es2 =>
              obtain ⟨h1, h2, es2', hperm, hee⟩ :=
                (h : nodupKeysB es1 = true ∧ nodupKeysB es2 = true ∧
                  ∃ es2', List.Perm es2 es2' ∧ entriesEquiv es1 es2')
              show PyVal.dict (sortEntries (normEntries es1)) =
                PyVal.dict (sortEntries (normEntries es2))
              have he : normEntries es1 = normEntries es2' :=
                entriesEquiv_norm_aux (sizeOf (PyVal.dict es1))
                  (fun a b hs => ih a b (by omega))
                  es1 es2' (fun p hp => sizeOf_mem_dict hp) hee
              have hpn : List.Perm (normEntries es2') (normEntries es2) := by
                rw [normEntries_map, normEntries_map]
                exact (hperm.map _).symm
              have hnodup : ((normEntries es2').map Prod.fst).Nodup := by
                rw [normEntries_fst]
                exact ((hperm.map Prod.fst).nodup_iff).mp
                  ((nodupKeysB_iff es2).mp h2)
              rw [he, sortEntries_eq_of_perm hpn hnodup]
          | none => exact False.elim h
          | bool b => exact False.elim h
          | int m => exact False.elim h
          | str s => exact False.elim h
          | list ys => exact False.elim h

/-- Python `==` implies equal sorted normal forms. -/
theorem pyEquiv_norm {x y : PyVal} (h : pyEquiv x y) : pyNorm x = pyNorm y :=
  pyEquiv_norm_aux (sizeOf x) x y le_rfl h

/-- Python-equal values serialize identically. -/
theorem pyToJson_equiv {x y : PyVal} (h : pyEquiv x y) :
    pyToJson x = pyToJson y := by
  rw [← pyToJson_norm x, ← pyToJson_norm y, pyEquiv_norm h]

/-! ### Equal normal forms imply Python equality (well-formed values) -/

theorem exists_perm_map {α β : Type} (f : α → β) :
    ∀ (l1 l2 : List α), List.Perm (l1.map f) (l2.map f) →
      ∃ l2', List.Perm l2 l2' ∧ l2'.map f = l1.map f
  | [], l2, h => by
      have h0 : l2.map f = [] := h.symm.eq_nil
      have h1 : l2 = [] := by
        cases l2 with
        | nil => rfl
        | cons b t => exact absurd h0 (by simp)
      exact ⟨[], by rw [h1], by simp⟩
  | a :: l1, l2, h => by
      have hmem : f a ∈ l2.map f := h.subset (List.mem_cons_self _ _)
      rcases List.mem_map.mp hmem with ⟨b, hb, hfb⟩
      rcases List.append_of_mem hb with ⟨s, t, rfl⟩
      have hmid : List.Perm (s ++ b :: t) (b :: (s ++ t)) := List.perm_middle
      have h2 : List.Perm (f a :: List.map f l1)
          (f a :: List.map f (s ++ t)) := by
        have := h.trans (hmid.map f)
        simp only [List.map_cons] at this
        rw [hfb] at this
        exact this
      rcases exists_perm_map f l1 (s ++ t) h2.cons_inv with ⟨D, hD1, hD2⟩
      refine ⟨b :: D, hmid.trans (hD1.cons b), ?_⟩
      rw [List.map_cons, List.map_cons, hD2, hfb]

theorem listEquiv_of_norm_aux (N : Nat)
    (rec : ∀ x y, sizeOf x < N → pyWF x = true → pyWF y = true →
      pyNorm x = pyNorm y → pyEquiv x y) :
    ∀ xs ys, (∀ x ∈ xs, sizeOf x < N) → listWF xs = true →
      listWF ys = true → normList xs = normList ys → listEquiv xs ys
  | [], [], _, _, _, _ => trivial
  | [], _ :: _, _, _, _, h => by
      rw [normList, normList] at h
      exact absurd h (by simp)
  | _ :: _, [], _, _, _, h => by
      rw [normList, normList] at h
      exact absurd h (by simp)
  | x :: xs, y :: ys, hb, hw1, hw2, h => by
      rw [normList, normList, List.cons.injEq] at h
      rw [show listWF (x :: xs) = (pyWF x && listWF xs) from rfl,
        Bool.and_eq_true] at hw1
      rw [show listWF (y :: ys) = (pyWF y && listWF ys) from rfl,
        Bool.and_eq_true] at hw2
      exact ⟨rec x y (hb x (List.mem_cons_self _ _)) hw1.1 hw2.1 h.1,
        listEquiv_of_norm_aux N rec xs ys
          (fun z hz => hb z (List.mem_cons_of_mem _ hz)) hw1.2 hw2.2 h.2⟩

theorem entriesEquiv_of_norm_aux (N : Nat)
    (rec : ∀ x y, sizeOf x < N → pyWF x = true → pyWF y = true →
      pyNorm x = pyNorm y → pyEquiv x y) :
    ∀ es1 es2, (∀ p ∈ es1, sizeOf p.2 < N) → entriesWF es1 = true →
      entriesWF es2 = true → normEntries es1 = normEntries es2 →
      entriesEquiv es1 es2
  | [], [], _, _, _, _ => trivial
  | [], (_, _) :: _, _, _, _, h => by
      rw [normEntries, normEntries] at h
      exact absurd h (by simp)
  | (_, _) :: _, [], _, _, _, h => by
      rw [normEntries, normEntries] at h
      exact absurd h (by simp)
  | (k1, v1) :: es1, (k2, v2) :: es2, hb, hw1, hw2, h => by
      rw [normEntries, normEntries, List.cons.injEq, Prod.mk.injEq] at h
      rw [show entriesWF ((k1, v1) :: es1) = (pyWF v1 && entriesWF es1)
        from rfl, Bool.and_eq_true] at hw1
      rw [show entriesWF ((k2, v2) :: es2) = (pyWF v2 && entriesWF es2)
        from rfl, Bool.and_eq_true] at hw2
      exact ⟨h.1.1,
        rec v1 v2 (hb (k1, v1) (List.mem_cons_self _ _)) hw1.1 hw2.1 h.1.2,
        entriesEquiv_of_norm_aux N rec es1 es2
          (fun p hp => hb p (List.mem_cons_of_mem _ hp)) hw1.2 hw2.2 h.2⟩

theorem pyNorm_equiv_aux :
    ∀ (n : Nat) (x y : PyVal), sizeOf x ≤ n → pyWF x = true →
      pyWF y = true → pyNorm x = pyNorm y → pyEquiv x y := by
  intro n
  induction n with
  | zero =>
      intro x _ hx
      exact absurd hx (by have := sizeOf_pyVal_pos x; omega)
  | succ n ih =>
      intro x y hx hw1 hw2 h
      cases x <;> cases y <;>
        first
          | trivial
          | (exact PyVal.noConfusion h)
          | skip
      case bool.bool a b => exact (PyVal.bool.injEq _ _ ▸ h : a = b)
      case int.int a b => exact (PyVal.int.injEq _ _ ▸ h : a = b)
      case str.str a b => exact (PyVal.str.injEq _ _ ▸ h : a = b)
      case list.list xs ys =>
          have h' : normList xs = normList ys := by
            have := h
            rw [show pyNorm (PyVal.list xs) = PyVal.list (normList xs)
              from rfl, show pyNorm (PyVal.list ys) =
              PyVal.list (normList ys) from rfl, PyVal.list.injEq] at this
            exact this
          exact listEquiv_of_norm_aux (sizeOf (PyVal.list xs))
            (fun a b hs => ih a b (by omega)) xs ys
            (fun z hz => sizeOf_mem_list hz) hw1 hw2 h'
      case dict.dict es1 es2 =>
          have hS : sortEntries (normEntries es1) =
              sortEntries (normEntries es2) := by
            have := h
            rw [show pyNorm (PyVal.dict es1) =
              PyVal.dict (sortEntries (normEntries es1)) from rfl,
              show pyNorm (PyVal.dict es2) =
              PyVal.dict (sortEntries (normEntries es2)) from rfl,
              PyVal.dict.injEq] at this
            exact this
          rw [show pyWF (PyVal.dict es1) =
            (nodupKeysB es1 && entriesWF es1) from rfl,
            Bool.and_eq_true] at hw1
          rw [show pyWF (PyVal.dict es2) =
            (nodupKeysB es2 && entriesWF es2) from rfl,
            Bool.and_eq_true] at hw2
          have hp : List.Perm (normEntries es1) (normEntries es2) :=
            (sortEntries_perm (normEntries es1)).symm.trans
              (hS ▸ sortEntries_perm (normEntries es2))
          have hpm : List.Perm
              (es1.map (fun p => (p.1, pyNorm p.2)))
              (es2.map (fun p => (p.1, pyNorm p.2))) := by
            rw [← normEntries_map, ← normEntries_map]
            exact hp
          rcases exists_perm_map (fun p => (p.1, pyNorm p.2)) es1 es2 hpm
            with ⟨es2', hperm, hmap⟩
          refine ⟨hw1.1, hw2.1, es2', hperm, ?_⟩
          have hwf2' : entriesWF es2' = true := entriesWF_perm hperm hw2.2
          have hnorm : normEntries es1 = normEntries es2' := by
            rw [normEntries_map, normEntries_map, hmap]
          exact entriesEquiv_of_norm_aux (sizeOf (PyVal.dict es1))
            (fun a b hs => ih a b (by omega)) es1 es2'
            (fun p hp' => sizeOf_mem_dict hp') hw1.2 hwf2' hnorm

/-- Equal sorted normal forms of well-formed values mean Python `==`. -/
theorem pyNorm_equiv {x y : PyVal} (hw1 : pyWF x = true)
    (hw2 : pyWF y = true) (h : pyNorm x = pyNorm y) : pyEquiv x y :=
  pyNorm_equiv_aux (sizeOf x) x y le_rfl hw1 hw2 h

/-! ### A reader for the serialized form

To show that the serialization determines an argument value up to
normalization — needed for the order-sensitivity of sequence arguments with
elements of every embedded type — a recursive-descent reader is defined
that decodes `pyToJson`'s output back into a value, and is proved to invert
the serialization. -/

def hexVal (c : Char) : Option Nat :=
  if c = '0' then some 0 else if c = '1' then some 1
  else if c = '2' then some 2 else if c = '3' then some 3
  else if c = '4' then some 4 else if c = '5' then some 5
  else if c = '6' then some 6 else if c = '7' then some 7
  else if c = '8' then some 8 else if c = '9' then some 9
  else if c = 'a' then some 10 else if c = 'b' then some 11
  else if c = 'c' then some 12 else if c = 'd' then some 13
  else if c = 'e' then some 14 else if c = 'f' then some 15
  else Option.none

theorem hexVal_hexChar : ∀ d < 16, hexVal (hexChar d) = some d := by decide

/-- The four hex digits of a `\uXXXX` escape. -/
def uEsc4 (n : Nat) : List Char :=
  [hexChar (n / 4096 % 16), hexChar (n / 256 % 16),
   hexChar (n / 16 % 16), hexChar (n % 16)]

theorem uEsc_eq (n : Nat) : uEsc n = '\\' :: 'u' :: uEsc4 n := rfl

/-- Reading of four hex digits into a code unit. -/
def readU : List Char → Option (Nat × List Char)
  | h1 :: h2 :: h3 :: h4 :: rest =>
      (hexVal h1).bind fun a => (hexVal h2).bind fun b =>
        (hexVal h3).bind fun c => (hexVal h4).bind fun d =>
          some (a * 4096 + b * 256 + c * 16 + d, rest)
  | _ => Option.none

theorem readU_uEsc4 {n : Nat} (h : n < 65536) (r : List Char) :
    readU (uEsc4 n ++ r) = some (n, r) := by
  have e1 := hexVal_hexChar (n / 4096 % 16) (Nat.mod_lt _ (by norm_num))
  have e2 := hexVal_hexChar (n / 256 % 16) (Nat.mod_lt _ (by norm_num))
  have e3 := hexVal_hexChar (n / 16 % 16) (Nat.mod_lt _ (by norm_num))
  have e4 := hexVal_hexChar (n % 16) (Nat.mod_lt _ (by norm_num))
  have harith : n / 4096 % 16 * 4096 + n / 256 % 16 * 256 +
      n / 16 % 16 * 16 + n % 16 = n := by omega
  show readU (hexChar (n / 4096 % 16) :: hexChar (n / 256 % 16) ::
    hexChar (n / 16 % 16) :: hexChar (n % 16) :: r) = some (n, r)
  rw [readU, e1, e2, e3, e4]
  show some (n / 4096 % 16 * 4096 + n / 256 % 16 * 256 +
    n / 16 % 16 * 16 + n % 16, r) = some (n, r)
  rw [harith]

/-- Every character's code point avoids the surrogate range. -/
theorem char_valid' (c : Char) :
    c.toNat < 55296 ∨ (57343 < c.toNat ∧ c.toNat < 1114112) := by
  rcases c.valid with h | ⟨h1, h2⟩
  · exact Or.inl h
  · exact Or.inr ⟨h1, h2⟩

/-- Reading of the low-surrogate escape of a pair, given the decoded high
surrogate. -/
def readLow (hi : Nat) : List Char → Option (Char × List Char)
  | b1 :: b2 :: rest =>
      if b1 = '\\' then
        if b2 = 'u' then
          (readU rest).bind fun w =>
            some (Char.ofNat (65536 + (hi - 55296) * 1024 + (w.1 - 56320)),
              w.2)
        else Option.none
      else Option.none
  | _ => Option.none

/-- Decoding of one escape sequence after its leading backslash. -/
def readEsc : List Char → Option (Char × List Char)
  | [] => Option.none
  | e :: cs =>
      if e = '"' then some ('"', cs)
      else if e = '\\' then some ('\\', cs)
      else if e = 'b' then some (Char.ofNat 8, cs)
      else if e = 't' then some (Char.ofNat 9, cs)
      else if e = 'n' then some (Char.ofNat 10, cs)
      else if e = 'f' then some (Char.ofNat 12, cs)
      else if e = 'r' then some (Char.ofNat 13, cs)
      else if e = 'u' then
        (readU cs).bind fun u =>
          if 55296 ≤ u.1 ∧ u.1 ≤ 56319 then readLow u.1 u.2
          else some (Char.ofNat u.1, u.2)
      else Option.none

/-- Decoding of one source character from the escaped stream. -/
def readUnit : List Char → Option (Char × List Char)
  | [] => Option.none
  | c :: cs => if c = '\\' then readEsc cs else some (c, cs)

theorem readUnit_backslash (e : Char) (cs : List Char) :
    readUnit ('\\' :: e :: cs) = readEsc (e :: cs) := by
  simp [readUnit]

theorem readEsc_u (cs : List Char) :
    readEsc ('u' :: cs) =
      (readU cs).bind fun u =>
        if 55296 ≤ u.1 ∧ u.1 ≤ 56319 then readLow u.1 u.2
        else some (Char.ofNat u.1, u.2) := by
  simp [readEsc]

theorem readLow_uEsc4 (hi : Nat) {m : Nat} (hm : m < 65536) (r : List Char) :
    readLow hi ('\\' :: 'u' :: (uEsc4 m ++ r)) =
      some (Char.ofNat (65536 + (hi - 55296) * 1024 + (m - 56320)), r) := by
  simp only [readLow, readU_uEsc4 hm r, Option.some_bind]
  simp

/-- The escape of a character starts with a backslash, or is the character
itself when it needs no escaping. -/
theorem escChar_shape (c : Char) :
    (∃ t, escChar c = '\\' :: t) ∨ (escChar c = [c] ∧ c ≠ '"' ∧ c ≠ '\\') := by
  by_cases h1 : c = '"'
  · exact Or.inl ⟨['"'], by simp [escChar, h1]⟩
  by_cases h2 : c = '\\'
  · exact Or.inl ⟨['\\'], by simp [escChar, h1, h2]⟩
  by_cases h3 : c.toNat = 8
  · exact Or.inl ⟨['b'], by simp [escChar, h1, h2, h3]⟩
  by_cases h4 : c.toNat = 9
  · exact Or.inl ⟨['t'], by simp [escChar, h1, h2, h3, h4]⟩
  by_cases h5 : c.toNat = 10
  · exact Or.inl ⟨['n'], by simp [escChar, h1, h2, h3, h4, h5]⟩
  by_cases h6 : c.toNat = 12
  · exact Or.inl ⟨['f'], by simp [escChar, h1, h2, h3, h4, h5, h6]⟩
  by_cases h7 : c.toNat = 13
  · exact Or.inl ⟨['r'], by simp [escChar, h1, h2, h3, h4, h5, h6, h7]⟩
  by_cases h8 : c.toNat < 32
  · exact Or.inl ⟨'u' :: uEsc4 c.toNat,
      by simp [escChar, h1, h2, h3, h4, h5, h6, h7, h8, uEsc_eq]⟩
  by_cases h9 : c.toNat < 127
  · exact Or.inr ⟨by simp [escChar, h1, h2, h3, h4, h5, h6, h7, h8, h9],
      h1, h2⟩
  by_cases h10 : c.toNat < 65536
  · exact Or.inl ⟨'u' :: uEsc4 c.toNat,
      by simp [escChar, h1, h2, h3, h4, h5, h6, h7, h8, h9, h10, uEsc_eq]⟩
  · refine Or.inl ⟨'u' :: uEsc4 (55296 + (c.toNat - 65536) / 1024) ++
      uEsc (56320 + (c.toNat - 65536) % 1024), ?_⟩
    have he : escChar c = uEsc (55296 + (c.toNat - 65536) / 1024) ++
        uEsc (56320 + (c.toNat - 65536) % 1024) := by
      simp [escChar, h1, h2, h3, h4, h5, h6, h7, h8, h9, h10]
    rw [he, uEsc_eq]
    rfl

/-- The reader decodes each escaped character back to itself. -/
theorem readUnit_escChar (c : Char) (r : List Char) :
    readUnit (escChar c ++ r) = some (c, r) := by
  by_cases h1 : c = '"'
  · rw [show escChar c = ['\\', '"'] from by simp [escChar, h1]]
    rw [show (['\\', '"'] : List Char) ++ r = '\\' :: '"' :: r from rfl,
      readUnit_backslash]
    simp [readEsc, h1]
  by_cases h2 : c = '\\'
  · rw [show escChar c = ['\\', '\\'] from by simp [escChar, h1, h2]]
    rw [show (['\\', '\\'] : List Char) ++ r = '\\' :: '\\' :: r from rfl,
      readUnit_backslash]
    simp [readEsc, h2]
  by_cases h3 : c.toNat = 8
  · rw [show escChar c = ['\\', 'b'] from by simp [escChar, h1, h2, h3]]
    rw [show (['\\', 'b'] : List Char) ++ r = '\\' :: 'b' :: r from rfl,
      readUnit_backslash]
    simp [readEsc]
    rw [← h3, Char.ofNat_toNat]
  by_cases h4 : c.toNat = 9
  · rw [show escChar c = ['\\', 't'] from by simp [escChar, h1, h2, h3, h4]]
    rw [show (['\\', 't'] : List Char) ++ r = '\\' :: 't' :: r from rfl,
      readUnit_backslash]
    simp [readEsc]
    rw [← h4, Char.ofNat_toNat]
  by_cases h5 : c.toNat = 10
  · rw [show escChar c = ['\\', 'n'] from by
      simp [escChar, h1, h2, h3, h4, h5]]
    rw [show (['\\', 'n'] : List Char) ++ r = '\\' :: 'n' :: r from rfl,
      readUnit_backslash]
    simp [readEsc]
    rw [← h5, Char.ofNat_toNat]
  by_cases h6 : c.toNat = 12
  · rw [show escChar c = ['\\', 'f'] from by
      simp [escChar, h1, h2, h3, h4, h5, h6]]
    rw [show (['\\', 'f'] : List Char) ++ r = '\\' :: 'f' :: r from rfl,
      readUnit_backslash]
    simp [readEsc]
    rw [← h6, Char.ofNat_toNat]
  by_cases h7 : c.toNat = 13
  · rw [show escChar c = ['\\', 'r'] from by
      simp [escChar, h1, h2, h3, h4, h5, h6, h7]]
    rw [show (['\\', 'r'] : List Char) ++ r = '\\' :: 'r' :: r from rfl,
      readUnit_backslash]
    simp [readEsc]
    rw [← h7, Char.ofNat_toNat]
  by_cases h8 : c.toNat < 32
  · rw [show escChar c = uEsc c.toNat from by
      simp [escChar, h1, h2, h3, h4, h5, h6, h7, h8], uEsc_eq]
    rw [show ('\\' :: 'u' :: uEsc4 c.toNat) ++ r =
      '\\' :: 'u' :: (uEsc4 c.toNat ++ r) from rfl, readUnit_backslash,
      readEsc_u, readU_uEsc4 (by omega) r]
    simp only [Option.some_bind]
    rw [if_neg (by omega), Char.ofNat_toNat]
  by_cases h9 : c.toNat < 127
  · rw [show escChar c = [c] from by
      simp [escChar, h1, h2, h3, h4, h5, h6, h7, h8, h9]]
    rw [show ([c] : List Char) ++ r = c :: r from rfl, readUnit, if_neg h2]
  by_cases h10 : c.toNat < 65536
  · have hns : c.toNat < 55296 ∨ 57343 < c.toNat := by
      rcases char_valid' c with h | ⟨h, -⟩
      · exact Or.inl h
      · exact Or.inr h
    rw [show escChar c = uEsc c.toNat from by
      simp [escChar, h1, h2, h3, h4, h5, h6, h7, h8, h9, h10], uEsc_eq]
    rw [show ('\\' :: 'u' :: uEsc4 c.toNat) ++ r =
      '\\' :: 'u' :: (uEsc4 c.toNat ++ r) from rfl, readUnit_backslash,
      readEsc_u, readU_uEsc4 (by omega) r]
    simp only [Option.some_bind]
    rw [if_neg (by omega), Char.ofNat_toNat]
  · have hv : c.toNat < 1114112 := by
      rcases char_valid' c with h | ⟨-, h⟩
      · omega
      · exact h
    have key : ∀ hi lo : Nat, hi < 65536 → lo < 65536 → 55296 ≤ hi →
        hi ≤ 56319 → 65536 + (hi - 55296) * 1024 + (lo - 56320) = c.toNat →
        readUnit ('\\' :: 'u' ::
          (uEsc4 hi ++ ('\\' :: 'u' :: (uEsc4 lo ++ r)))) = some (c, r) := by
      intro hi lo hhi65 hlo65 hge hle heq
      rw [readUnit_backslash, readEsc_u, readU_uEsc4 hhi65 _]
      simp only [Option.some_bind]
      rw [if_pos ⟨hge, hle⟩, readLow_uEsc4 _ hlo65 _, heq, Char.ofNat_toNat]
    rw [show escChar c = uEsc (55296 + (c.toNat - 65536) / 1024) ++
        uEsc (56320 + (c.toNat - 65536) % 1024) from by
      simp [escChar, h1, h2, h3, h4, h5, h6, h7, h8, h9, h10],
      uEsc_eq, uEsc_eq]
    rw [show ('\\' :: 'u' :: uEsc4 (55296 + (c.toNat - 65536) / 1024)) ++
        ('\\' :: 'u' :: uEsc4 (56320 + (c.toNat - 65536) % 1024)) ++ r =
      '\\' :: 'u' :: (uEsc4 (55296 + (c.toNat - 65536) / 1024) ++
        ('\\' :: 'u' :: (uEsc4 (56320 + (c.toNat - 65536) % 1024) ++ r)))
      from by simp]
    exact key _ _ (by omega) (by omega) (by omega) (by omega) (by omega)

theorem escChar_ne_nil (c : Char) : escChar c ≠ [] := by
  rcases escChar_shape c with ⟨t, ht⟩ | ⟨ht, -, -⟩ <;> simp [ht]

theorem flatten_escChar_length (cs : List Char) :
    cs.length ≤ ((cs.map escChar).flatten).length := by
  induction cs with
  | nil => simp
  | cons c cs ih =>
      have h1 : 0 < (escChar c).length :=
        List.length_pos.mpr (escChar_ne_nil c)
      simp only [List.map_cons, List.flatten_cons, List.length_append,
        List.length_cons]
      omega

/-- The string reader: decodes escaped characters until the closing quote. -/
def parseStrAux : Nat → List Char → Option (List Char × List Char)
  | 0, _ => Option.none
  | _ + 1, [] => Option.none
  | fuel + 1, c :: cs =>
      if c = '"' then some ([], cs)
      else
        (readUnit (c :: cs)).bind fun u =>
          (parseStrAux fuel u.2).map fun q => (u.1 :: q.1, q.2)

theorem parseStr_round :
    ∀ (cs : List Char) (fuel : Nat) (r : List Char), cs.length < fuel →
      parseStrAux fuel ((cs.map escChar).flatten ++ '"' :: r) = some (cs, r)
  | [], fuel, r, h => by
      obtain ⟨f, rfl⟩ : ∃ f, fuel = f + 1 := ⟨fuel - 1, by omega⟩
      simp [parseStrAux]
  | c :: cs, fuel, r, h => by
      obtain ⟨f, rfl⟩ : ∃ f, fuel = f + 1 := ⟨fuel - 1, by omega⟩
      obtain ⟨h0, t0, hct, hne⟩ : ∃ h0 t0, escChar c = h0 :: t0 ∧ h0 ≠ '"' := by
        rcases escChar_shape c with ⟨t, ht⟩ | ⟨ht, hq, -⟩
        · exact ⟨'\\', t, ht, by decide⟩
        · exact ⟨c, [], ht, hq⟩
      have hs : ((c :: cs).map escChar).flatten ++ '"' :: r =
          h0 :: (t0 ++ ((cs.map escChar).flatten ++ '"' :: r)) := by
        rw [List.map_cons, List.flatten_cons, hct]
        simp
      rw [hs, parseStrAux, if_neg hne]
      have hread : readUnit
          (h0 :: (t0 ++ ((cs.map escChar).flatten ++ '"' :: r))) =
          some (c, (cs.map escChar).flatten ++ '"' :: r) := by
        have hu := readUnit_escChar c ((cs.map escChar).flatten ++ '"' :: r)
        rw [hct, List.cons_append] at hu
        exact hu
      rw [hread]
      simp only [Option.some_bind]
      rw [parseStr_round cs f r
        (by simp only [List.length_cons] at h; omega)]
      rfl

/-! ### The number reader -/

def parseNat : List Char → Nat → Nat × List Char
  | [], acc => (acc, [])
  | c :: cs, acc =>
      if 48 ≤ c.toNat ∧ c.toNat ≤ 57 then
        parseNat cs (acc * 10 + (c.toNat - 48))
      else (acc, c :: cs)

/-- The rest string does not continue with a decimal digit. -/
def noDigitHead : List Char → Prop
  | [] => True
  | c :: _ => ¬ (48 ≤ c.toNat ∧ c.toNat ≤ 57)

theorem digitChar_toNat : ∀ d < 10, (digitChar d).toNat = 48 + d := by decide

theorem parseNat_digits :
    ∀ (l : List Nat) (r : List Char) (acc : Nat), (∀ d ∈ l, d < 10) →
      noDigitHead r →
      parseNat (l.map digitChar ++ r) acc =
        (List.foldl (fun a d => a * 10 + d) acc l, r)
  | [], r, acc, _, hr => by
      cases r with
      | nil => rfl
      | cons c t =>
          rw [List.map_nil, List.nil_append, parseNat, if_neg hr]
          rfl
  | d :: l, r, acc, hl, hr => by
      have hd : d < 10 := hl d (List.mem_cons_self _ _)
      have hdt : (digitChar d).toNat = 48 + d := digitChar_toNat d hd
      have hcond : 48 ≤ (digitChar d).toNat ∧ (digitChar d).toNat ≤ 57 := by
        rw [hdt]; omega
      rw [List.map_cons, List.cons_append, parseNat, if_pos hcond]
      have hacc : acc * 10 + ((digitChar d).toNat - 48) = acc * 10 + d := by
        rw [hdt]
        omega
      rw [hacc, parseNat_digits l r _
        (fun x hx => hl x (List.mem_cons_of_mem _ hx)) hr]
      rfl

theorem foldl_digits_eq :
    ∀ (l : List Nat) (acc : Nat),
      List.foldl (fun a d => a * 10 + d) acc l =
        acc * 10 ^ l.length + Nat.ofDigits 10 l.reverse
  | [], acc => by simp [Nat.ofDigits]
  | d :: l, acc => by
      rw [List.foldl_cons, foldl_digits_eq l (acc * 10 + d),
        List.reverse_cons, Nat.ofDigits_append]
      simp only [List.length_cons, List.length_reverse]
      rw [Nat.ofDigits_singleton]
      ring

theorem parseNat_natToChars (n : Nat) (r : List Char) (hr : noDigitHead r) :
    parseNat (natToChars n ++ r) 0 = (n, r) := by
  by_cases h : n = 0
  · subst h
    rw [show natToChars 0 ++ r = ([0].map digitChar) ++ r from rfl,
      parseNat_digits [0] r 0 (by simp) hr]
    rfl
  · have hd : natToChars n = ((Nat.digits 10 n).reverse).map digitChar := by
      rw [natToChars_eq_digits h]
      exact (List.map_reverse _ _).symm
    rw [hd, parseNat_digits _ r 0
      (fun x hx => Nat.digits_lt_base (by norm_num) (List.mem_reverse.mp hx))
      hr, foldl_digits_eq]
    simp [Nat.ofDigits_digits]

def parseInt : List Char → Int × List Char
  | [] => (0, [])
  | c :: cs =>
      if c = '-' then
        ((-((parseNat cs 0).1) : Int), (parseNat cs 0).2)
      else
        (((parseNat (c :: cs) 0).1 : Int), (parseNat (c :: cs) 0).2)

theorem parseInt_round (i : Int) (r : List Char) (hr : noDigitHead r) :
    parseInt (intToChars i ++ r) = (i, r) := by
  by_cases hi : i < 0
  · rw [show intToChars i = '-' :: natToChars i.natAbs from by
      rw [intToChars, if_pos hi], List.cons_append, parseInt, if_pos rfl,
      parseNat_natToChars i.natAbs r hr]
    show (-((i.natAbs : Nat) : Int), r) = (i, r)
    have hn : -((i.natAbs : Nat) : Int) = i := by omega
    rw [hn]
  · have hne : intToChars i = natToChars i.toNat := by
      rw [intToChars, if_neg hi]
    obtain ⟨c, t, hct, hd⟩ : ∃ c t, natToChars i.toNat = c :: t ∧ c ≠ '-' := by
      cases hc : natToChars i.toNat with
      | nil => exact absurd hc (natToChars_ne_nil _)
      | cons c t =>
          obtain ⟨d, hd10, rfl⟩ := mem_natToChars (n := i.toNat)
            (by rw [hc]; exact List.mem_cons_self _ _)
          exact ⟨digitChar d, t, rfl, digitChar_ne_dash d hd10⟩
    rw [hne, hct, List.cons_append, parseInt, if_neg hd]
    have hp : parseNat (c :: (t ++ r)) 0 = (i.toNat, r) := by
      have hp0 := parseNat_natToChars i.toNat r hr
      rw [hct, List.cons_append] at hp0
      exact hp0
    rw [hp]
    show (((i.toNat : Nat) : Int), r) = (i, r)
    have hn : ((i.toNat : Nat) : Int) = i := by omega
    rw [hn]

/-- The rest after a complete serialized value inside a composite: empty or
starting with a separator or a closing bracket. -/
def closer : List Char → Prop
  | [] => True
  | c :: _ => c = ',' ∨ c = ']' ∨ c = '}'

theorem closer_noDigit : ∀ r, closer r → noDigitHead r
  | [], _ => trivial
  | c :: t, h => by
      have h' : c = ',' ∨ c = ']' ∨ c = '}' := h
      rcases h' with rfl | rfl | rfl
      · exact (by decide : ¬(48 ≤ (',').toNat ∧ (',').toNat ≤ 57))
      · exact (by decide : ¬(48 ≤ (']').toNat ∧ (']').toNat ≤ 57))
      · exact (by decide : ¬(48 ≤ ('}').toNat ∧ ('}').toNat ≤ 57))

/-! ### The value reader -/

def expect (c : Char) : List Char → Option (List Char)
  | [] => Option.none
  | x :: xs => if x = c then some xs else Option.none

theorem expect_same (c : Char) (xs : List Char) :
    expect c (c :: xs) = some xs := by
  rw [expect, if_pos rfl]

mutual

/-- Reader for one serialized value, with fuel bounding the nesting. -/
def parseVal : Nat → List Char → Option (PyVal × List Char)
  | 0, _ => Option.none
  | fuel + 1, l =>
      match l with
      | [] => Option.none
      | c :: cs =>
          if c = 'n' then
            (expect 'u' cs).bind fun r1 => (expect 'l' r1).bind fun r2 =>
              (expect 'l' r2).map fun r3 => (PyVal.none, r3)
          else if c = 't' then
            (expect 'r' cs).bind fun r1 => (expect 'u' r1).bind fun r2 =>
              (expect 'e' r2).map fun r3 => (PyVal.bool true, r3)
          else if c = 'f' then
            (expect 'a' cs).bind fun r1 => (expect 'l' r1).bind fun r2 =>
              (expect 's' r2).bind fun r3 =>
                (expect 'e' r3).map fun r4 => (PyVal.bool false, r4)
          else if c = '"' then
            (parseStrAux cs.length cs).map fun q => (PyVal.str ⟨q.1⟩, q.2)
          else if c = '[' then
            (parseItems fuel cs).map fun q => (PyVal.list q.1, q.2)
          else if c = '{' then
            (parseEntries fuel cs).map fun q => (PyVal.dict q.1, q.2)
          else
            some (PyVal.int (parseInt (c :: cs)).1, (parseInt (c :: cs)).2)
termination_by structural fuel l => fuel

/-- Reader for the items of a serialized list, up to the closing bracket. -/
def parseItems : Nat → List Char → Option (List PyVal × List Char)
  | 0, _ => Option.none
  | fuel + 1, l =>
      if l.head? = some ']' then some ([], l.tail)
      else
        (parseVal fuel l).bind fun p =>
          if p.2.head? = some ']' then some ([p.1], p.2.tail)
          else
            (expect ',' p.2).bind fun r1 =>
              (expect ' ' r1).bind fun r2 =>
                (parseItems fuel r2).map fun q => (p.1 :: q.1, q.2)
termination_by structural fuel l => fuel

/-- Reader for the entries of a serialized dict, up to the closing brace. -/
def parseEntries : Nat → List Char → Option (List (String × PyVal) × List Char)
  | 0, _ => Option.none
  | fuel + 1, l =>
      if l.head? = some '}' then some ([], l.tail)
      else
        (expect '"' l).bind fun l1 =>
          (parseStrAux l1.length l1).bind fun k =>
            (expect ':' k.2).bind fun r1 =>
              (expect ' ' r1).bind fun r2 =>
                (parseVal fuel r2).bind fun p =>
                  if p.2.head? = some '}' then
                    some ([(⟨k.1⟩, p.1)], p.2.tail)
                  else
                    (expect ',' p.2).bind fun r3 =>
                      (expect ' ' r3).bind fun r4 =>
                        (parseEntries fuel r4).map fun q =>
                          ((⟨k.1⟩, p.1) :: q.1, q.2)
termination_by structural fuel l => fuel

end

theorem parseVal_quote (n : Nat) (cs : List Char) :
    parseVal (n + 1) ('"' :: cs) =
      (parseStrAux cs.length cs).map fun q => (PyVal.str ⟨q.1⟩, q.2) := by
  simp [parseVal]

theorem parseVal_lbrack (n : Nat) (cs : List Char) :
    parseVal (n + 1) ('[' :: cs) =
      (parseItems n cs).map fun q => (PyVal.list q.1, q.2) := by
  simp [parseVal]

theorem parseVal_lbrace (n : Nat) (cs : List Char) :
    parseVal (n + 1) ('{' :: cs) =
      (parseEntries n cs).map fun q => (PyVal.dict q.1, q.2) := by
  simp [parseVal]

theorem parseItems_nil (n : Nat) (r : List Char) :
    parseItems (n + 1) (']' :: r) = some ([], r) := by
  rw [parseItems,
    if_pos (show (']' :: r).head? = some ']' from rfl)]
  rfl

theorem parseEntries_nil (n : Nat) (r : List Char) :
    parseEntries (n + 1) ('}' :: r) = some ([], r) := by
  rw [parseEntries,
    if_pos (show ('}' :: r).head? = some '}' from rfl)]
  rfl

/-- Every serialization starts with a character of the constructor's
class. -/
theorem json_head (v : PyVal) : ∃ c t, pyToJson v = c :: t ∧
    (c = 'n' ∨ c = 't' ∨ c = 'f' ∨ c = '"' ∨ c = '[' ∨ c = '{' ∨
      c = '-' ∨ (48 ≤ c.toNat ∧ c.toNat ≤ 57)) := by
  cases v with
  | none => exact ⟨'n', ['u', 'l', 'l'], rfl, Or.inl rfl⟩
  | bool b =>
      cases b with
      | true => exact ⟨'t', ['r', 'u', 'e'], rfl, Or.inr (Or.inl rfl)⟩
      | false =>
          exact ⟨'f', ['a', 'l', 's', 'e'], rfl,
            Or.inr (Or.inr (Or.inl rfl))⟩
  | str s =>
      exact ⟨'"', (s.data.map escChar).flatten ++ ['"'], rfl,
        Or.inr (Or.inr (Or.inr (Or.inl rfl)))⟩
  | list xs =>
      exact ⟨'[', joinComma (listJson xs) ++ [']'], rfl,
        Or.inr (Or.inr (Or.inr (Or.inr (Or.inl rfl))))⟩
  | dict es =>
      exact ⟨'{', joinComma ((sortPairs (entriesJson es)).map renderPair) ++
        ['}'], rfl, Or.inr (Or.inr (Or.inr (Or.inr (Or.inr (Or.inl rfl)))))⟩
  | int i =>
      by_cases hi : i < 0
      · exact ⟨'-', natToChars i.natAbs,
          by show intToChars i = _; rw [intToChars, if_pos hi],
          Or.inr (Or.inr (Or.inr (Or.inr (Or.inr (Or.inr (Or.inl rfl))))))⟩
      · obtain ⟨c, t, hct, hrange⟩ :
            ∃ c t, natToChars i.toNat = c :: t ∧
              48 ≤ c.toNat ∧ c.toNat ≤ 57 := by
          cases hc : natToChars i.toNat with
          | nil => exact absurd hc (natToChars_ne_nil _)
          | cons c t =>
              obtain ⟨d, hd10, rfl⟩ := mem_natToChars (n := i.toNat)
                (by rw [hc]; exact List.mem_cons_self _ _)
              refine ⟨digitChar d, t, rfl, ?_⟩
              rw [digitChar_toNat d hd10]
              omega
        exact ⟨c, t,
          by show intToChars i = _; rw [intToChars, if_neg hi, hct],
          Or.inr (Or.inr (Or.inr (Or.inr (Or.inr
            (Or.inr (Or.inr hrange))))))⟩

theorem json_head_ne_rsqb (v : PyVal) (r : List Char) :
    ¬ (pyToJson v ++ r).head? = some ']' := by
  obtain ⟨c, t, he, hc⟩ := json_head v
  rw [he, List.cons_append, List.head?_cons]
  intro h
  have hcc : c = ']' := Option.some.inj h
  subst hcc
  rcases hc with h' | h' | h' | h' | h' | h' | h' | h' <;>
    exact absurd h' (by decide)

theorem perm_sizeOf_list {α : Type} [SizeOf α] {l1 l2 : List α}
    (h : List.Perm l1 l2) : sizeOf l1 = sizeOf l2 := by
  induction h with
  | nil => rfl
  | cons x _ ih => simp [ih]
  | swap x y l => simp; omega
  | trans _ _ ih1 ih2 => omega

/-- The rendering of one dict entry directly from the entry. -/
def rendE (p : String × PyVal) : List Char :=
  jsonStr p.1 ++ ':' :: ' ' :: pyToJson p.2

theorem renderPair_entriesJson (es : List (String × PyVal)) :
    (entriesJson es).map renderPair = es.map rendE := by
  rw [entriesJson_map, List.map_map]
  rfl

theorem parseVal_int (n : Nat) (i : Int) (r : List Char) (hr : closer r) :
    parseVal (n + 1) (intToChars i ++ r) = some (PyVal.int i, r) := by
  obtain ⟨c, t, hct, hcls⟩ : ∃ c t, intToChars i = c :: t ∧
      (c = '-' ∨ (48 ≤ c.toNat ∧ c.toNat ≤ 57)) := by
    rw [intToChars]
    by_cases hi : i < 0
    · rw [if_pos hi]
      exact ⟨'-', natToChars i.natAbs, rfl, Or.inl rfl⟩
    · rw [if_neg hi]
      cases hc : natToChars i.toNat with
      | nil => exact absurd hc (natToChars_ne_nil _)
      | cons c t =>
          obtain ⟨d, hd10, rfl⟩ := mem_natToChars (n := i.toNat)
            (by rw [hc]; exact List.mem_cons_self _ _)
          refine ⟨digitChar d, t, rfl, Or.inr ?_⟩
          rw [digitChar_toNat d hd10]
          omega
  have hc1 : ¬ c = 'n' := by
    rcases hcls with rfl | hcls
    · decide
    · intro h0; subst h0; exact absurd hcls (by decide)
  have hc2 : ¬ c = 't' := by
    rcases hcls with rfl | hcls
    · decide
    · intro h0; subst h0; exact absurd hcls (by decide)
  have hc3 : ¬ c = 'f' := by
    rcases hcls with rfl | hcls
    · decide
    · intro h0; subst h0; exact absurd hcls (by decide)
  have hc4 : ¬ c = '"' := by
    rcases hcls with rfl | hcls
    · decide
    · intro h0; subst h0; exact absurd hcls (by decide)
  have hc5 : ¬ c = '[' := by
    rcases hcls with rfl | hcls
    · decide
    · intro h0; subst h0; exact absurd hcls (by decide)
  have hc6 : ¬ c = '{' := by
    rcases hcls with rfl | hcls
    · decide
    · intro h0; subst h0; exact absurd hcls (by decide)
  rw [hct, List.cons_append]
  rw [show parseVal (n + 1) (c :: (t ++ r)) = some (PyVal.int
      (parseInt (c :: (t ++ r))).1, (parseInt (c :: (t ++ r))).2) from by
    simp only [parseVal]
    rw [if_neg hc1, if_neg hc2, if_neg hc3, if_neg hc4, if_neg hc5,
      if_neg hc6]]
  have hp : parseInt (c :: (t ++ r)) = (i, r) := by
    have hp0 := parseInt_round i r (closer_noDigit r hr)
    rw [hct, List.cons_append] at hp0
    exact hp0
  rw [hp]

/-- The reader inverts the serialization, producing the sorted normal form:
simultaneously for values, list items, and dict entries, by induction on
the fuel. -/
theorem parse_round : ∀ fuel : Nat,
    (∀ (v : PyVal) (r : List Char), sizeOf v ≤ fuel → closer r →
      parseVal fuel (pyToJson v ++ r) = some (pyNorm v, r)) ∧
    (∀ (xs : List PyVal) (r : List Char), xs ≠ [] → sizeOf xs ≤ fuel →
      parseItems fuel (joinComma (xs.map pyToJson) ++ ']' :: r) =
        some (xs.map pyNorm, r)) ∧
    (∀ (es : List (String × PyVal)) (r : List Char), es ≠ [] →
      sizeOf es ≤ fuel →
      parseEntries fuel (joinComma (es.map rendE) ++ '}' :: r) =
        some (es.map (fun p => (p.1, pyNorm p.2)), r)) := by
  intro fuel
  induction fuel with
  | zero =>
      refine ⟨?_, ?_, ?_⟩
      · intro v r hv _
        exact absurd hv (by have := sizeOf_pyVal_pos v; omega)
      · intro xs r hne hsz
        cases xs with
        | nil => exact absurd rfl hne
        | cons x t =>
            have h1 : sizeOf (x :: t) = 1 + sizeOf x + sizeOf t := by simp
            omega
      · intro es r hne hsz
        cases es with
        | nil => exact absurd rfl hne
        | cons p t =>
            have h1 : sizeOf (p :: t) = 1 + sizeOf p + sizeOf t := by simp
            omega
  | succ n ih =>
      obtain ⟨ihv, ihl, ihe⟩ := ih
      refine ⟨?_, ?_, ?_⟩
      · intro v r hv hr
        cases v with
        | none =>
            show parseVal (n + 1) ('n' :: 'u' :: 'l' :: 'l' :: r) =
              some (PyVal.none, r)
            simp [parseVal, expect]
        | bool b =>
            cases b with
            | true =>
                show parseVal (n + 1) ('t' :: 'r' :: 'u' :: 'e' :: r) =
                  some (PyVal.bool true, r)
                simp [parseVal, expect]
            | false =>
                show parseVal (n + 1)
                    ('f' :: 'a' :: 'l' :: 's' :: 'e' :: r) =
                  some (PyVal.bool false, r)
                simp [parseVal, expect]
        | int i => exact parseVal_int n i r hr
        | str s =>
            have hs : pyToJson (PyVal.str s) ++ r =
                '"' :: ((s.data.map escChar).flatten ++ '"' :: r) := by
              show jsonStr s ++ r = _
              rw [jsonStr]
              simp
            have hlen : s.data.length <
                ((s.data.map escChar).flatten ++ '"' :: r).length := by
              have h1 := flatten_escChar_length s.data
              simp only [List.length_append, List.length_cons]
              omega
            rw [hs, parseVal_quote, parseStr_round s.data _ r hlen]
            rfl
        | list xs =>
            cases xs with
            | nil =>
                have he : pyToJson (PyVal.list ([] : List PyVal)) ++ r =
                    '[' :: ']' :: r := rfl
                obtain ⟨m, rfl⟩ : ∃ m, n = m + 1 := ⟨n - 1, by
                  have h2 : sizeOf (PyVal.list ([] : List PyVal)) ≤ n + 1 :=
                    hv
                  have h3 : sizeOf (PyVal.list ([] : List PyVal)) = 2 := by
                    simp
                  omega⟩
                rw [he, parseVal_lbrack, parseItems_nil]
                rfl
            | cons x t =>
                have he : pyToJson (PyVal.list (x :: t)) ++ r =
                    '[' :: (joinComma ((x :: t).map pyToJson) ++
                      ']' :: r) := by
                  rw [pyToJson_list_eq, listJson_map]
                  simp
                rw [he, parseVal_lbrack,
                  ihl (x :: t) r (by simp) (by
                    have h1 : sizeOf (PyVal.list (x :: t)) =
                        1 + sizeOf (x :: t) := by simp
                    omega)]
                show some (PyVal.list ((x :: t).map pyNorm), r) =
                  some (pyNorm (PyVal.list (x :: t)), r)
                rw [show pyNorm (PyVal.list (x :: t)) =
                  PyVal.list (normList (x :: t)) from rfl, normList_map]
        | dict es =>
            by_cases hes : es = []
            · subst hes
              have he : pyToJson
                  (PyVal.dict ([] : List (String × PyVal))) ++ r =
                  '{' :: '}' :: r := rfl
              obtain ⟨m, rfl⟩ : ∃ m, n = m + 1 := ⟨n - 1, by
                have h2 : sizeOf
                    (PyVal.dict ([] : List (String × PyVal))) ≤ n + 1 := hv
                have h3 : sizeOf
                    (PyVal.dict ([] : List (String × PyVal))) = 2 := by simp
                omega⟩
              rw [he, parseVal_lbrace, parseEntries_nil]
              rfl
            · have he : pyToJson (PyVal.dict es) ++ r =
                  '{' :: (joinComma ((sortEntries es).map rendE) ++
                    '}' :: r) := by
                rw [pyToJson_dict_eq, sortPairs_entriesJson,
                  renderPair_entriesJson]
                simp
              have hEne : sortEntries es ≠ [] := by
                intro h0
                have hp := sortEntries_perm es
                rw [h0] at hp
                exact hes hp.symm.eq_nil
              have hsz2 : sizeOf (sortEntries es) ≤ n := by
                have h1 := perm_sizeOf_list (sortEntries_perm es)
                have h2 : sizeOf (PyVal.dict es) = 1 + sizeOf es := by simp
                omega
              rw [he, parseVal_lbrace, ihe (sortEntries es) r hEne hsz2]
              show some (PyVal.dict ((sortEntries es).map
                  (fun p => (p.1, pyNorm p.2))), r) =
                some (pyNorm (PyVal.dict es), r)
              rw [show pyNorm (PyVal.dict es) =
                PyVal.dict (sortEntries (normEntries es)) from rfl,
                sortEntries_normEntries, ← normEntries_map]
      · intro xs r hne hsz
        cases xs with
        | nil => exact absurd rfl hne
        | cons x t =>
            have hszx : sizeOf x ≤ n := by
              have h1 : sizeOf (x :: t) = 1 + sizeOf x + sizeOf t := by simp
              have h2 : 1 ≤ sizeOf t := by
                cases t with
                | nil => simp
                | cons a b =>
                    have h3 : sizeOf (a :: b) =
                        1 + sizeOf a + sizeOf b := by simp
                    omega
              omega
            cases t with
            | nil =>
                have hs0 : joinComma
                    ((x :: ([] : List PyVal)).map pyToJson) ++ ']' :: r =
                    pyToJson x ++ ']' :: r := rfl
                rw [hs0, parseItems, if_neg (json_head_ne_rsqb x _),
                  ihv x (']' :: r) hszx (Or.inr (Or.inl rfl))]
                rfl
            | cons y u =>
                have hs0 : joinComma ((x :: y :: u).map pyToJson) ++
                    ']' :: r =
                    pyToJson x ++ ',' :: ' ' ::
                      (joinComma ((y :: u).map pyToJson) ++ ']' :: r) := by
                  show (pyToJson x ++ ',' :: ' ' ::
                    joinComma (pyToJson y :: u.map pyToJson)) ++
                      ']' :: r = _
                  rw [List.append_assoc]
                  rfl
                rw [hs0, parseItems, if_neg (json_head_ne_rsqb x _),
                  ihv x (',' :: ' ' ::
                    (joinComma ((y :: u).map pyToJson) ++ ']' :: r)) hszx
                    (Or.inl rfl)]
                show (parseItems n (joinComma ((y :: u).map pyToJson) ++
                    ']' :: r)).map (fun q => (pyNorm x :: q.1, q.2)) =
                  some ((x :: y :: u).map pyNorm, r)
                rw [ihl (y :: u) r (by simp) (by
                  have h1 : sizeOf (x :: y :: u) =
                      1 + sizeOf x + sizeOf (y :: u) := by simp
                  omega)]
                rfl
      · intro es r hne hsz
        cases es with
        | nil => exact absurd rfl hne
        | cons p t =>
            obtain ⟨k, v⟩ := p
            have hszv : sizeOf v ≤ n := by
              have h1 : sizeOf ((k, v) :: t) =
                  1 + sizeOf (k, v) + sizeOf t := by simp
              have h2 : sizeOf ((k, v) : String × PyVal) =
                  1 + sizeOf k + sizeOf v := by simp
              have h3 : 1 ≤ sizeOf t := by
                cases t with
                | nil => simp
                | cons a b =>
                    have h4 : sizeOf (a :: b) =
                        1 + sizeOf a + sizeOf b := by simp
                    omega
              omega
            cases t with
            | nil =>
                have hs0 : joinComma
                    (((k, v) :: ([] : List (String × PyVal))).map rendE) ++
                      '}' :: r =
                    '"' :: ((k.data.map escChar).flatten ++
                      '"' :: ':' :: ' ' :: (pyToJson v ++ '}' :: r)) := by
                  show rendE (k, v) ++ '}' :: r = _
                  simp [rendE, jsonStr]
                have hlen : k.data.length <
                    ((k.data.map escChar).flatten ++
                      '"' :: ':' :: ' ' :: (pyToJson v ++ '}' :: r)).length := by
                  have h1 := flatten_escChar_length k.data
                  simp only [List.length_append, List.length_cons]
                  omega
                rw [hs0, parseEntries, if_neg (by simp), expect_same]
                simp only [Option.some_bind]
                rw [parseStr_round k.data _ _ hlen]
                simp only [Option.some_bind]
                rw [expect_same]
                simp only [Option.some_bind]
                rw [expect_same]
                simp only [Option.some_bind]
                rw [ihv v ('}' :: r) hszv (Or.inr (Or.inr rfl))]
                rfl
            | cons q u =>
                have hs0 : joinComma (((k, v) :: q :: u).map rendE) ++
                      '}' :: r =
                    '"' :: ((k.data.map escChar).flatten ++
                      '"' :: ':' :: ' ' :: (pyToJson v ++
                        ',' :: ' ' :: (joinComma ((q :: u).map rendE) ++
                          '}' :: r))) := by
                  show (rendE (k, v) ++ ',' :: ' ' ::
                    joinComma (rendE q :: u.map rendE)) ++ '}' :: r = _
                  simp [rendE, jsonStr]
                have hlen : k.data.length <
                    ((k.data.map escChar).flatten ++
                      '"' :: ':' :: ' ' :: (pyToJson v ++
                        ',' :: ' ' :: (joinComma ((q :: u).map rendE) ++
                          '}' :: r))).length := by
                  have h1 := flatten_escChar_length k.data
                  simp only [List.length_append, List.length_cons]
                  omega
                rw [hs0, parseEntries, if_neg (by simp), expect_same]
                simp only [Option.some_bind]
                rw [parseStr_round k.data _ _ hlen]
                simp only [Option.some_bind]
                rw [expect_same]
                simp only [Option.some_bind]
                rw [expect_same]
                simp only [Option.some_bind]
                rw [ihv v (',' :: ' ' ::
                  (joinComma ((q :: u).map rendE) ++ '}' :: r)) hszv
                  (Or.inl rfl)]
                show (parseEntries n (joinComma ((q :: u).map rendE) ++
                    '}' :: r)).map
                      (fun z => ((k, pyNorm v) :: z.1, z.2)) =
                  some (((k, v) :: q :: u).map
                    (fun p => (p.1, pyNorm p.2)), r)
                rw [ihe (q :: u) r (by simp) (by
                  have h1 : sizeOf ((k, v) :: q :: u) =
                      1 + sizeOf (k, v) + sizeOf (q :: u) := by simp
                  omega)]
                rfl

/-- Equal serializations force equal sorted normal forms. -/
theorem pyToJson_norm_inj {x y : PyVal} (h : pyToJson x = pyToJson y) :
    pyNorm x = pyNorm y := by
  have hx := (parse_round (max (sizeOf x) (sizeOf y))).1 x []
    (le_max_left _ _) trivial
  have hy := (parse_round (max (sizeOf x) (sizeOf y))).1 y []
    (le_max_right _ _) trivial
  rw [h] at hx
  exact congrArg Prod.fst (Option.some.inj (hx.symm.trans hy))

/-! ### The key derivation under Python equality of arguments -/

/-- Argument normalization sends Python-equal values to equal strings. -/
theorem normalizeArg_pyEquiv {a b : PyVal} (h : pyEquiv a b) :
    normalizeArg a = normalizeArg b := by
  cases a <;> cases b <;> try exact False.elim h
  case none.none => rfl
  case bool.bool x y =>
      have hxy : x = y := h
      rw [hxy]
  case int.int x y =>
      have hxy : x = y := h
      rw [hxy]
  case str.str x y =>
      have hxy : x = y := h
      rw [hxy]
  case list.list xs ys =>
      show pyToJson (PyVal.list xs) = pyToJson (PyVal.list ys)
      exact pyToJson_equiv h
  case dict.dict e1 e2 =>
      show pyToJson (PyVal.dict e1) = pyToJson (PyVal.dict e2)
      exact pyToJson_equiv h

/-- Python-equal keyword dicts contribute the same key part. -/
theorem kwTail_pyEquiv {k1 k2 : List (String × PyVal)}
    (h : pyEquiv (PyVal.dict k1) (PyVal.dict k2)) : kwTail k1 = kwTail k2 := by
  have hlen : k1.length = k2.length := by
    obtain ⟨-, -, es2', hp, he⟩ :=
      (h : nodupKeysB k1 = true ∧ nodupKeysB k2 = true ∧
        ∃ es2', List.Perm k2 es2' ∧ entriesEquiv k1 es2')
    exact (entriesEquiv_length he).trans hp.length_eq.symm
  rw [kwTail, kwTail]
  by_cases he1 : k1.isEmpty
  · have he2 : k2.isEmpty := by cases k1 <;> cases k2 <;> simp_all
    rw [if_pos he1, if_pos he2]
  · have he2 : ¬ k2.isEmpty := by cases k1 <;> cases k2 <;> simp_all
    rw [if_neg he1, if_neg he2, pyToJson_equiv h]

theorem map_normalizeArg_equiv {args1 args2 : List PyVal}
    (h : List.Forall₂ pyEquiv args1 args2) :
    args1.map normalizeArg = args2.map normalizeArg := by
  induction h with
  | nil => rfl
  | cons h1 _ ih => simp [normalizeArg_pyEquiv h1, ih]

/-- The generated key is invariant under Python equality of every
positional argument and of the keyword dict (C5, equality direction). -/
theorem genKeyStr_pyEquiv {args1 args2 : List PyVal}
    {kwargs1 kwargs2 : List (String × PyVal)} (pfx fname : String)
    (hargs : List.Forall₂ pyEquiv args1 args2)
    (hkw : pyEquiv (PyVal.dict kwargs1) (PyVal.dict kwargs2)) :
    genKeyStr fname args1 kwargs1 pfx = genKeyStr fname args2 kwargs2 pfx := by
  unfold genKeyStr
  rw [keyParts_eq, keyParts_eq, map_normalizeArg_equiv hargs,
    kwTail_pyEquiv hkw]

/-- Two list arguments that are not Python-equal give different keys in any
argument position (C5, inequality direction). -/
theorem genKeyStr_list_ne_general (pfx fname : String)
    (ctx ctx2 : List PyVal) (kwargs : List (String × PyVal))
    {xs ys : List PyVal} (hwx : pyWF (PyVal.list xs) = true)
    (hwy : pyWF (PyVal.list ys) = true)
    (hne : ¬ pyEquiv (PyVal.list xs) (PyVal.list ys)) :
    genKeyStr fname (ctx ++ PyVal.list xs :: ctx2) kwargs pfx ≠
      genKeyStr fname (ctx ++ PyVal.list ys :: ctx2) kwargs pfx := by
  intro h
  rw [genKeyStr_decomp pfx fname ctx _ ctx2 kwargs
      (normalizeArg_list_ne_nil _),
    genKeyStr_decomp pfx fname ctx _ ctx2 kwargs
      (normalizeArg_list_ne_nil _)] at h
  have h1 := List.append_cancel_left h
  have h2 := List.append_cancel_right h1
  have h3 : pyToJson (PyVal.list xs) = pyToJson (PyVal.list ys) := h2
  exact hne (pyNorm_equiv hwx hwy (pyToJson_norm_inj h3))

/-! ### Behavior of the cached wrapper -/

theorem storeGet_set_same (st : Store) (now t2 : ℚ) (k : List Char)
    (v : PyVal) (ttl : ℚ) :
    storeGet (storeSet st now k v ttl) t2 k =
      if t2 < now + ttl then some v else Option.none := by
  unfold storeGet storeSet
  rw [List.find?_cons_of_pos]
  simp

theorem pyGet_set_same (st : Store) (now t2 : ℚ) (k : List Char) (v : PyVal)
    (ttl : ℚ) :
    pyGet (storeSet st now k v ttl) t2 k =
      if t2 < now + ttl then v else PyVal.none := by
  unfold pyGet
  rw [storeGet_set_same]
  by_cases h : t2 < now + ttl
  · rw [if_pos h, if_pos h]; rfl
  · rw [if_neg h, if_neg h]; rfl

theorem pyGet_empty (now : ℚ) (k : List Char) :
    pyGet Store.empty now k = PyVal.none := rfl

theorem cachedCall_miss (ttl : ℚ) (pfx : String)
    (f : List PyVal → List (String × PyVal) → PyVal) (fname : String)
    (args : List PyVal) (kwargs : List (String × PyVal)) (st : Store)
    (now : ℚ)
    (h : pyGet st now (genKeyStr fname args kwargs pfx) = PyVal.none) :
    cachedCall ttl pfx f fname args kwargs st now =
      ⟨f args kwargs,
       storeSet st now (genKeyStr fname args kwargs pfx) (f args kwargs) ttl,
       true⟩ := by
  simp only [cachedCall, h]

theorem cachedCall_hit (ttl : ℚ) (pfx : String)
    (f : List PyVal → List (String × PyVal) → PyVal) (fname : String)
    (args : List PyVal) (kwargs : List (String × PyVal)) (st : Store)
    (now : ℚ) (v : PyVal) (hv : v ≠ PyVal.none)
    (h : pyGet st now (genKeyStr fname args kwargs pfx) = v) :
    cachedCall ttl pfx f fname args kwargs st now = ⟨v, st, false⟩ := by
  cases v with
  | none => exact absurd rfl hv
  | bool b => simp [cachedCall, h]
  | int n => simp [cachedCall, h]
  | str s => simp [cachedCall, h]
  | list xs => simp [cachedCall, h]
  | dict es => simp [cachedCall, h]

/-- C1 (counterexample): the claim "two consecutive invocations with
identical arguments within `ttl_seconds` invoke `f` exactly once" fails for
a wrapped callable returning `None`: with `ttl_seconds = 5`,
`key_prefix = 'p'`, `f` constantly `None` and no arguments, the first call
at `t = 0` and the second at `t = 1` (well within the TTL) both execute the
wrapped callable's body — the retrieved stored `None` is treated as a
miss. -/
theorem C1_counterexample :
    (cachedCall 5 "p" (fun _ _ => PyVal.none) "g" [] []
      Store.empty 0).invoked = true ∧
    (cachedCall 5 "p" (fun _ _ => PyVal.none) "g" [] []
      (cachedCall 5 "p" (fun _ _ => PyVal.none) "g" [] []
        Store.empty 0).store 1).invoked = true := by
  have h1 := cachedCall_miss 5 "p" (fun _ _ => PyVal.none) "g" [] []
    Store.empty 0 rfl
  have h2 : pyGet (cachedCall 5 "p" (fun _ _ => PyVal.none) "g" [] []
      Store.empty 0).store 1 (genKeyStr "g" [] [] "p") = PyVal.none := by
    rw [h1]
    show pyGet (storeSet Store.empty 0 (genKeyStr "g" [] [] "p")
      PyVal.none 5) 1 (genKeyStr "g" [] [] "p") = PyVal.none
    rw [pyGet_set_same]
    by_cases h : (1 : ℚ) < 0 + 5
    · rw [if_pos h]
    · rw [if_neg h]
  have h3 := cachedCall_miss 5 "p" (fun _ _ => PyVal.none) "g" [] []
    (cachedCall 5 "p" (fun _ _ => PyVal.none) "g" [] [] Store.empty 0).store
    1 h2
  exact ⟨by rw [h1], by rw [h3]⟩

/-- C1 (amended): for every wrapped callable and argument list whose result
is not `None`: a call finding no live non-`None` entry under the derived key
executes the callable, stores the result under the key with the configured
TTL, and returns it; a call finding a live value other than `None` returns
it without executing the callable and leaves the store unchanged; and two
consecutive invocations with identical arguments within `ttl_seconds`
(starting from a store with no live value under the key) execute the
callable exactly once — the first call runs and stores, the second is a pure
hit — and both return the same value. -/
theorem C1_cached_contract (ttl : ℚ) (pfx : String)
    (f : List PyVal → List (String × PyVal) → PyVal) (fname : String)
    (args : List PyVal) (kwargs : List (String × PyVal)) :
    (∀ st now, pyGet st now (genKeyStr fname args kwargs pfx) = PyVal.none →
      cachedCall ttl pfx f fname args kwargs st now =
        ⟨f args kwargs,
         storeSet st now (genKeyStr fname args kwargs pfx) (f args kwargs)
           ttl, true⟩) ∧
    (∀ st now v, v ≠ PyVal.none →
      pyGet st now (genKeyStr fname args kwargs pfx) = v →
      cachedCall ttl pfx f fname args kwargs st now = ⟨v, st, false⟩) ∧
    (∀ st0 t1 t2, f args kwargs ≠ PyVal.none →
      pyGet st0 t1 (genKeyStr fname args kwargs pfx) = PyVal.none →
      t2 < t1 + ttl →
      (cachedCall ttl pfx f fname args kwargs st0 t1).invoked = true ∧
      (cachedCall ttl pfx f fname args kwargs st0 t1).value =
        f args kwargs ∧
      (cachedCall ttl pfx f fname args kwargs
        (cachedCall ttl pfx f fname args kwargs st0 t1).store t2).invoked =
        false ∧
      (cachedCall ttl pfx f fname args kwargs
        (cachedCall ttl pfx f fname args kwargs st0 t1).store t2).value =
        f args kwargs) := by
  refine ⟨fun st now h => cachedCall_miss ttl pfx f fname args kwargs st now h,
    fun st now v hv h => cachedCall_hit ttl pfx f fname args kwargs st now v
      hv h, fun st0 t1 t2 hf hfresh httl => ?_⟩
  have h1 := cachedCall_miss ttl pfx f fname args kwargs st0 t1 hfresh
  have h2 : pyGet (cachedCall ttl pfx f fname args kwargs st0 t1).store t2
      (genKeyStr fname args kwargs pfx) = f args kwargs := by
    rw [h1]
    show pyGet (storeSet st0 t1 (genKeyStr fname args kwargs pfx)
      (f args kwargs) ttl) t2 (genKeyStr fname args kwargs pfx) =
      f args kwargs
    rw [pyGet_set_same, if_pos httl]
  have h3 := cachedCall_hit ttl pfx f fname args kwargs
    (cachedCall ttl pfx f fname args kwargs st0 t1).store t2
    (f args kwargs) hf h2
  exact ⟨by rw [h1], by rw [h1], by rw [h3], by rw [h3]⟩

/-- C1 (witness): the amended contract at a concrete instance — a constant
integer-valued callable, empty arguments, `ttl_seconds = 5`, first call at
`t = 0` and second at `t = 1`. -/
theorem C1_witness :
    (cachedCall 5 "p" (fun _ _ => PyVal.int 7) "g" [] []
      Store.empty 0).invoked = true ∧
    (cachedCall 5 "p" (fun _ _ => PyVal.int 7) "g" [] []
      Store.empty 0).value = PyVal.int 7 ∧
    (cachedCall 5 "p" (fun _ _ => PyVal.int 7) "g" [] []
      (cachedCall 5 "p" (fun _ _ => PyVal.int 7) "g" [] []
        Store.empty 0).store 1).invoked = false ∧
    (cachedCall 5 "p" (fun _ _ => PyVal.int 7) "g" [] []
      (cachedCall 5 "p" (fun _ _ => PyVal.int 7) "g" [] []
        Store.empty 0).store 1).value = PyVal.int 7 :=
  (C1_cached_contract 5 "p" (fun _ _ => PyVal.int 7) "g" [] []).2.2
    Store.empty 0 1 (fun hh => PyVal.noConfusion hh) rfl (by norm_num)

/-- C9: a wrapped callable returning `None` is never served from the cache:
starting from any store with no live value under the derived key, the first
call executes the callable and stores `None`, and a second call at any
instant — within the TTL or not — executes the callable again, because the
wrapper treats the retrieved `None` (which is also `cache.get`'s default for
absence) as a miss. -/
theorem C9_none_result_never_hits (ttl : ℚ) (pfx : String)
    (f : List PyVal → List (String × PyVal) → PyVal) (fname : String)
    (args : List PyVal) (kwargs : List (String × PyVal)) (st0 : Store)
    (t1 t2 : ℚ) (hf : f args kwargs = PyVal.none)
    (hfresh : pyGet st0 t1 (genKeyStr fname args kwargs pfx) = PyVal.none) :
    (cachedCall ttl pfx f fname args kwargs st0 t1).invoked = true ∧
    (cachedCall ttl pfx f fname args kwargs st0 t1).value = PyVal.none ∧
    (cachedCall ttl pfx f fname args kwargs
      (cachedCall ttl pfx f fname args kwargs st0 t1).store t2).invoked =
      true ∧
    (cachedCall ttl pfx f fname args kwargs
      (cachedCall ttl pfx f fname args kwargs st0 t1).store t2).value =
      PyVal.none := by
  have h1 := cachedCall_miss ttl pfx f fname args kwargs st0 t1 hfresh
  have h2 : pyGet (cachedCall ttl pfx f fname args kwargs st0 t1).store t2
      (genKeyStr fname args kwargs pfx) = PyVal.none := by
    rw [h1]
    show pyGet (storeSet st0 t1 (genKeyStr fname args kwargs pfx)
      (f args kwargs) ttl) t2 (genKeyStr fname args kwargs pfx) = PyVal.none
    rw [pyGet_set_same]
    by_cases h : t2 < t1 + ttl
    · rw [if_pos h, hf]
    · rw [if_neg h]
  have h3 := cachedCall_miss ttl pfx f fname args kwargs
    (cachedCall ttl pfx f fname args kwargs st0 t1).store t2 h2
  exact ⟨by rw [h1], by rw [h1, hf], by rw [h3], by rw [h3, hf]⟩

/-- C9 (witness): the `None`-returning callable at a concrete instance:
both the call at `t = 0` and the repeat call at `t = 1` (within the
5-second TTL) execute the body. -/
theorem C9_witness :
    (cachedCall 5 "q" (fun _ _ => PyVal.none) "h" [] []
      Store.empty 0).invoked = true ∧
    (cachedCall 5 "q" (fun _ _ => PyVal.none) "h" [] []
      Store.empty 0).value = PyVal.none ∧
    (cachedCall 5 "q" (fun _ _ => PyVal.none) "h" [] []
      (cachedCall 5 "q" (fun _ _ => PyVal.none) "h" [] []
        Store.empty 0).store 1).invoked = true ∧
    (cachedCall 5 "q" (fun _ _ => PyVal.none) "h" [] []
      (cachedCall 5 "q" (fun _ _ => PyVal.none) "h" [] []
        Store.empty 0).store 1).value = PyVal.none :=
  C9_none_result_never_hits 5 "q" (fun _ _ => PyVal.none) "h" [] []
    Store.empty 0 1 rfl rfl

/-! ### Token bucket properties -/

theorem rlStep_tokens_bounds (s : RLState) (now : ℚ) (hr : 0 < s.rate) :
    0 ≤ (rlStep s now).2.tokens ∧ (rlStep s now).2.tokens ≤ s.rate ∧
      (rlStep s now).2.rate = s.rate := by
  unfold rlStep rlRefill
  by_cases h : min s.rate (s.tokens + (now - s.last_update) * s.rate) < 1
  · rw [if_pos h]
    exact ⟨le_refl 0, le_of_lt hr, rfl⟩
  · rw [if_neg h]
    push_neg at h
    refine ⟨?_, ?_, rfl⟩
    · show (0 : ℚ) ≤ min s.rate (s.tokens + (now - s.last_update) * s.rate) - 1
      linarith
    · show min s.rate (s.tokens + (now - s.last_update) * s.rate) - 1 ≤
        s.rate
      have hmin : min s.rate (s.tokens + (now - s.last_update) * s.rate) ≤
          s.rate := min_le_left _ _
      linarith

theorem rlRun_bounds : ∀ (ts : List ℚ) (s : RLState), 0 < s.rate →
    0 ≤ s.tokens → s.tokens ≤ s.rate →
    0 ≤ (rlRun s ts).tokens ∧ (rlRun s ts).tokens ≤ (rlRun s ts).rate ∧
      (rlRun s ts).rate = s.rate
  | [], s, _, h0, h1 => ⟨h0, h1, rfl⟩
  | t :: ts, s, hr, _, _ => by
      have hb := rlStep_tokens_bounds s t hr
      have hr' : 0 < (rlStep s t).2.rate := by rw [hb.2.2]; exact hr
      have ht' : (rlStep s t).2.tokens ≤ (rlStep s t).2.rate := by
        rw [hb.2.2]; exact hb.2.1
      have ih := rlRun_bounds ts (rlStep s t).2 hr' hb.1 ht'
      have hrun : rlRun s (t :: ts) = rlRun (rlStep s t).2 ts := rfl
      refine ⟨?_, ?_, ?_⟩
      · rw [hrun]; exact ih.1
      · rw [hrun]; exact ih.2.1
      · rw [hrun, ih.2.2, hb.2.2]

/-- C2: one pass of the in-memory limiter refills the bucket to
`min(capacity, tokens + elapsed*capacity)` with `elapsed = now -
lastRefillTime`, records `lastRefillTime = now`, then — when fewer than one
token is available — sleeps exactly `(1 - tokens)/capacity` seconds
(post-refill tokens) and zeroes the bucket, and otherwise consumes one
token; the wrapped callable is then invoked once with the original argument
and its value returned. -/
theorem C2_token_bucket_step {α β : Type} (s : RLState) (now : ℚ)
    (f : α → β) (x : α) :
    (rlRefill s now).tokens =
      min s.rate (s.tokens + (now - s.last_update) * s.rate) ∧
    (rlRefill s now).last_update = now ∧
    (rlRefill s now).rate = s.rate ∧
    rlStep s now =
      (if (rlRefill s now).tokens < 1
        then ((1 - (rlRefill s now).tokens) / s.rate,
          { rlRefill s now with tokens := 0 })
        else (0, { rlRefill s now with
          tokens := (rlRefill s now).tokens - 1 })) ∧
    rlCall s now f x = (f x, [x], (rlStep s now).1, (rlStep s now).2) :=
  ⟨rfl, rfl, rfl, rfl, rfl⟩

/-- C3: both rate limiter variants are transparent wrappers: the wrapped
callable is invoked exactly once with the original argument and its value
is returned unchanged, for the in-memory token bucket and for the shared
sliding-window limiter (in every store condition, healthy or failing — the
limiter only ever delays, it never drops, rejects, or raises). -/
theorem C3_limiter_transparent {α β : Type} :
    (∀ (s : RLState) (now : ℚ) (f : α → β) (x : α),
      (rlCall s now f x).1 = f x ∧ (rlCall s now f x).2.1 = [x]) ∧
    (∀ (cps : Nat) (w : ℚ) (fg fs : Bool) (prev : Option (List ℚ))
        (now : ℚ) (f : α → β) (x : α),
      (redisCall cps w fg fs prev now f x).1 = f x ∧
      (redisCall cps w fg fs prev now f x).2.1 = [x]) := by
  refine ⟨fun s now f x => ⟨rfl, rfl⟩, fun cps w fg fs prev now f x => ?_⟩
  unfold redisCall
  cases h : redisInner cps w fg fs prev now with
  | ok p => exact ⟨rfl, rfl⟩
  | error e => exact ⟨rfl, rfl⟩

/-- C4: the in-memory bucket's token count lies in `[0, capacity]` in the
constructor state and stays there across any sequence of wrapped
invocations at non-decreasing instants, and the refill amount is monotone
in the elapsed wall-clock time. -/
theorem C4_token_bounds :
    (∀ r t0 : ℚ, 0 < r → 0 ≤ (RLState.init r t0).tokens ∧
      (RLState.init r t0).tokens ≤ (RLState.init r t0).rate) ∧
    (∀ (s : RLState) (now : ℚ), 0 < s.rate → 0 ≤ s.tokens →
      s.tokens ≤ s.rate → s.last_update ≤ now →
      0 ≤ (rlStep s now).2.tokens ∧
        (rlStep s now).2.tokens ≤ (rlStep s now).2.rate) ∧
    (∀ (r t0 : ℚ) (ts : List ℚ), 0 < r → List.Chain (· ≤ ·) t0 ts →
      0 ≤ (rlRun (RLState.init r t0) ts).tokens ∧
        (rlRun (RLState.init r t0) ts).tokens ≤ r) ∧
    (∀ (s : RLState) (n1 n2 : ℚ), 0 ≤ s.rate → n1 ≤ n2 →
      (rlRefill s n1).tokens ≤ (rlRefill s n2).tokens) := by
  refine ⟨fun r t0 hr => ⟨le_of_lt hr, le_refl r⟩,
    fun s now hr _ _ _ => ?_, fun r t0 ts hr _ => ?_, fun s n1 n2 hr h => ?_⟩
  · have hb := rlStep_tokens_bounds s now hr
    exact ⟨hb.1, hb.2.2 ▸ hb.2.1⟩
  · have hb := rlRun_bounds ts (RLState.init r t0) hr (le_of_lt hr)
      (le_refl r)
    have hrate : (rlRun (RLState.init r t0) ts).rate = r := hb.2.2
    refine ⟨hb.1, ?_⟩
    conv_rhs => rw [← hrate]
    exact hb.2.1
  · show min s.rate (s.tokens + (n1 - s.last_update) * s.rate) ≤
      min s.rate (s.tokens + (n2 - s.last_update) * s.rate)
    refine min_le_min (le_refl _) ?_
    have : (n1 - s.last_update) * s.rate ≤ (n2 - s.last_update) * s.rate :=
      mul_le_mul_of_nonneg_right (by linarith) hr
    linarith

/-- C4 (witness): the bounds at a concrete instance: capacity 5, start
`t = 0`, a step at `t = 1`, a run over instants `1, 2`, and refill
monotonicity between elapsed times `1` and `2`. -/
theorem C4_witness :
    (0 ≤ (RLState.init 5 0).tokens ∧
      (RLState.init 5 0).tokens ≤ (RLState.init 5 0).rate) ∧
    (0 ≤ (rlStep (RLState.mk 5 5 0) 1).2.tokens ∧
      (rlStep (RLState.mk 5 5 0) 1).2.tokens ≤
        (rlStep (RLState.mk 5 5 0) 1).2.rate) ∧
    (0 ≤ (rlRun (RLState.init 5 0) [1, 2]).tokens ∧
      (rlRun (RLState.init 5 0) [1, 2]).tokens ≤ 5) ∧
    ((rlRefill (RLState.mk 5 5 0) 1).tokens ≤
      (rlRefill (RLState.mk 5 5 0) 2).tokens) :=
  ⟨C4_token_bounds.1 5 0 (by norm_num),
   C4_token_bounds.2.1 (RLState.mk 5 5 0) 1 (by norm_num) (by norm_num)
     (by norm_num) (by norm_num),
   C4_token_bounds.2.2.1 5 0 [1, 2] (by norm_num)
     (List.Chain.cons (by norm_num) (List.Chain.cons (by norm_num)
       List.Chain.nil)),
   C4_token_bounds.2.2.2 (RLState.mk 5 5 0) 1 2 (by norm_num) (by norm_num)⟩

/-- C6: `record_call` increments the total by exactly one; increments the
failure counter by one exactly when the call was not a success; increments
the rate-limited counter by one exactly when the response code is 429 (the
two counters are independent — both fire for a failed 429 call); appends a
given latency and keeps only the most recent 100 entries (dropping the
oldest first); and, from an empty bucket, recording 10 successes and 2
failures (one code 500, one code 429) yields total 12, failed 2,
rate-limited 1, and success rate 10/12. -/
theorem C6_record_call_updates :
    (∀ (st : MonStats) (s : Bool) (code : Option Int) (lat : Option ℚ),
      (recordUpdate st s code lat).total = st.total + 1 ∧
      ((recordUpdate st s code lat).failed = st.failed + 1 ↔ s = false) ∧
      ((recordUpdate st s code lat).failed = st.failed ↔ s = true) ∧
      ((recordUpdate st s code lat).rate_limited = st.rate_limited + 1 ↔
        code = some 429) ∧
      ((recordUpdate st s code lat).rate_limited = st.rate_limited ↔
        ¬ code = some 429)) ∧
    (∀ (st : MonStats) (s : Bool) (code : Option Int) (l : ℚ),
      (recordUpdate st s code (some l)).latencies =
        (st.latencies ++ [l]).drop ((st.latencies ++ [l]).length - 100)) ∧
    (∀ (st : MonStats) (s : Bool) (code : Option Int),
      (recordUpdate st s code Option.none).latencies = st.latencies) ∧
    (∀ (st : MonStats) (s : Bool) (code : Option Int) (l : ℚ),
      st.latencies.length ≤ 100 →
      (recordUpdate st s code (some l)).latencies.length ≤ 100) ∧
    (recordMany (List.replicate 10 (true, some 200, Option.none) ++
      [(false, some 500, Option.none), (false, some 429, Option.none)]) =
      MonStats.mk 12 2 1 []) ∧
    (successRate (recordMany
      (List.replicate 10 (true, some 200, Option.none) ++
        [(false, some 500, Option.none), (false, some 429, Option.none)])) =
      10 / 12) := by
  refine ⟨fun st s code lat => ?_, fun st s code l => rfl,
    fun st s code => rfl, fun st s code l h => ?_, by decide, ?_⟩
  · cases s <;> by_cases hc : code = some 429 <;>
      simp [recordUpdate, hc]
  · show ((st.latencies ++ [l]).drop
      ((st.latencies ++ [l]).length - 100)).length ≤ 100
    rw [List.length_drop]
    omega
  · have hfold : recordMany (List.replicate 10 (true, some 200, Option.none)
      ++ [(false, some 500, Option.none), (false, some 429, Option.none)]) =
      MonStats.mk 12 2 1 [] := by decide
    rw [hfold]
    norm_num [successRate]

/-- C7: after any `record_call` over a healthy store, the alert handler
fires exactly when the just-updated statistics reach at least 20 total
calls, the rate-limited fraction strictly exceeds the monitor's threshold,
and no alert cooldown is active; the cooldown flag is stored (with the
fixed 300-second TTL) exactly when the alert fires; and the updated
statistics are always stored. -/
theorem C7_alert_exactly_when (θ : ℚ) (prev : Option MonStats) (cd : Bool)
    (s : Bool) (code : Option Int) (lat : Option ℚ) :
    ((recordCall θ prev cd s code lat).alert = true ↔
      (20 ≤ (recordUpdate (prev.getD MonStats.empty) s code lat).total ∧
       θ < rlPct (recordUpdate (prev.getD MonStats.empty) s code lat) ∧
       cd = false)) ∧
    ((recordCall θ prev cd s code lat).cooldownTtl =
      if (recordCall θ prev cd s code lat).alert = true then some 300
      else Option.none) ∧
    ((recordCall θ prev cd s code lat).stats =
      some (recordUpdate (prev.getD MonStats.empty) s code lat)) := by
  unfold recordCall checkThreshold
  by_cases h1 : (recordUpdate (prev.getD MonStats.empty) s code lat).total
      < 20
  · simp [h1]
  · by_cases h2 : θ < rlPct (recordUpdate (prev.getD MonStats.empty) s code
        lat)
    · cases cd
      · simp [h1, h2]
        omega
      · simp [h1, h2]
    · simp [h1, h2]

/-- C6 (witness): the truncation bound at a concrete instance: an empty
latency list stays within 100 entries after recording one latency. -/
theorem C6_witness :
    ([] : List ℚ).length ≤ 100 ∧
    (recordUpdate (MonStats.mk 0 0 0 []) true Option.none
      (some 3)).latencies.length ≤ 100 :=
  ⟨by decide, C6_record_call_updates.2.2.2.1 (MonStats.mk 0 0 0 []) true
    Option.none 3 (by decide)⟩

/-- C8 (counterexample): a raising backing-store `get` propagates out of the
cache wrapper — `cache.get` at cache_utils.py line 63 is not inside a try
block.  Concretely, with a store whose `get` raises, the wrapped call
errors instead of executing the callable. -/
theorem C8_counterexample :
    cachedCallE 5 "p" (fun _ _ => PyVal.int 7) "g" [] [] true false
      Store.empty 0 = Except.error () := rfl

/-- C8 (amended): store-failure behavior per component.  Cache: with a
healthy `get`, the wrapper never raises — with a healthy `set` it behaves
as the healthy wrapper, and with a raising `set` the failure is caught, the
computed result is returned, and nothing is stored; a raising `get`,
however, propagates to the caller.  Shared sliding-window limiter: the
callable is always invoked once with the original argument and its value
returned; when the store read fails the limiter fails open — no wait is
applied and nothing is stored.  Monitor: `record_call` never propagates an
exception; when the stats read or write raises, the recording is dropped
(nothing stored, no alert). -/
theorem C8_amended_store_failures :
    (∀ (ttl : ℚ) (pfx : String)
        (f : List PyVal → List (String × PyVal) → PyVal) (fname : String)
        (args : List PyVal) (kwargs : List (String × PyVal)) (st : Store)
        (now : ℚ),
      cachedCallE ttl pfx f fname args kwargs false false st now =
        Except.ok (cachedCall ttl pfx f fname args kwargs st now) ∧
      cachedCallE ttl pfx f fname args kwargs false true st now =
        Except.ok ⟨(cachedCall ttl pfx f fname args kwargs st now).value,
          st, (cachedCall ttl pfx f fname args kwargs st now).invoked⟩ ∧
      (∀ fs : Bool, cachedCallE ttl pfx f fname args kwargs true fs st now =
        Except.error ())) ∧
    (∀ {α β : Type} (cps : Nat) (w : ℚ) (fg fs : Bool)
        (prev : Option (List ℚ)) (now : ℚ) (f : α → β) (x : α),
      (redisCall cps w fg fs prev now f x).1 = f x ∧
      (redisCall cps w fg fs prev now f x).2.1 = [x] ∧
      (fg = true → (redisCall cps w fg fs prev now f x).2.2.1 = 0 ∧
        (redisCall cps w fg fs prev now f x).2.2.2 = prev)) ∧
    (∀ (θ : ℚ) (a b c d : Bool) (prev : Option MonStats) (cd : Bool)
        (s : Bool) (code : Option Int) (lat : Option ℚ),
      (∃ o, recordCallE θ a b c d prev cd s code lat = Except.ok o) ∧
      ((a = true ∨ b = true) →
        recordCallE θ a b c d prev cd s code lat =
          Except.ok ⟨Option.none, false, Option.none⟩)) := by
  refine ⟨fun ttl pfx f fname args kwargs st now => ?_,
    fun cps w fg fs prev now f x => ?_,
    fun θ a b c d prev cd s code lat => ?_⟩
  · refine ⟨?_, ?_, fun fs => rfl⟩ <;>
      cases h : pyGet st now (genKeyStr fname args kwargs pfx) <;>
        simp [cachedCallE, cachedCall, h]
  · refine ⟨?_, ?_, fun hfg => ?_⟩
    · unfold redisCall
      cases h : redisInner cps w fg fs prev now with
      | ok p => rfl
      | error e => rfl
    · unfold redisCall
      cases h : redisInner cps w fg fs prev now with
      | ok p => rfl
      | error e => rfl
    · subst hfg
      exact ⟨rfl, rfl⟩
  · refine ⟨⟨_, rfl⟩, fun hab => ?_⟩
    cases a with
    | true => rfl
    | false =>
        rcases hab with h | h
        · exact absurd h (by decide)
        · subst h
          rfl

/-- C8 (witness): the amended behaviors at concrete instances — healthy
cache round trip, fail-open shared limiter on a raising read, and a dropped
monitor recording on a raising stats read. -/
theorem C8_witness :
    (cachedCallE 5 "p" (fun _ _ => PyVal.int 7) "g" [] [] false false
        Store.empty 0 =
      Except.ok (cachedCall 5 "p" (fun _ _ => PyVal.int 7) "g" [] []
        Store.empty 0)) ∧
    ((redisCall 5 1 true false Option.none 0 (fun n : Nat => n + 1)
        3).2.2.1 = 0 ∧
      (redisCall 5 1 true false Option.none 0 (fun n : Nat => n + 1)
        3).2.2.2 = Option.none) ∧
    (recordCallE 1 true false false false Option.none false true
        Option.none Option.none =
      Except.ok ⟨Option.none, false, Option.none⟩) :=
  ⟨(C8_amended_store_failures.1 5 "p" (fun _ _ => PyVal.int 7) "g" [] []
      Store.empty 0).1,
   (C8_amended_store_failures.2.1 5 1 true false Option.none 0
      (fun n : Nat => n + 1) 3).2.2 rfl,
   (C8_amended_store_failures.2.2 1 true false false false Option.none
      false true Option.none Option.none).2 (Or.inl rfl)⟩

/-- C5: the cache key derivation yields identical keys for two calls whose
arguments are Python-equal position by position — in particular mapping
(dict) arguments that hold the same entries regardless of key insertion
order, arbitrarily nested — and whose keyword dicts are Python-equal; and
it yields different keys for two calls that differ only in the element
order of a sequence (list) argument, in any argument position, for list
elements of every embedded type.  (`pyEquiv` is Python `==` on the embedded
values: structural equality except that dicts compare as key-value
mappings; `pyWF` states that every dict holds no duplicate keys, which
Python dicts guarantee.) -/
theorem C5_key_order_sensitivity :
    (∀ (pfx fname : String) (args1 args2 : List PyVal)
        (kwargs1 kwargs2 : List (String × PyVal)),
      List.Forall₂ pyEquiv args1 args2 →
      pyEquiv (PyVal.dict kwargs1) (PyVal.dict kwargs2) →
      genKeyStr fname args1 kwargs1 pfx =
        genKeyStr fname args2 kwargs2 pfx) ∧
    (∀ (pfx fname : String) (ctx ctx2 : List PyVal)
        (kwargs : List (String × PyVal)) (xs ys : List PyVal),
      pyWF (PyVal.list xs) = true → pyWF (PyVal.list ys) = true →
      List.Perm xs ys → ¬ pyEquiv (PyVal.list xs) (PyVal.list ys) →
      genKeyStr fname (ctx ++ PyVal.list xs :: ctx2) kwargs pfx ≠
        genKeyStr fname (ctx ++ PyVal.list ys :: ctx2) kwargs pfx) :=
  ⟨fun pfx fname _ _ _ _ ha hk => genKeyStr_pyEquiv pfx fname ha hk,
   fun pfx fname ctx ctx2 kwargs _ _ hwx hwy _ hne =>
     genKeyStr_list_ne_general pfx fname ctx ctx2 kwargs hwx hwy hne⟩

/-- C5 (witness): at concrete inputs — the dicts `{'b': 2, 'a': 1}` and
`{'a': 1, 'b': 2}` generate one key, while `f([1,2,3])` and `f([3,2,1])`
generate different keys. -/
theorem C5_witness :
    genKeyStr "f" [PyVal.dict [("b", PyVal.int 2), ("a", PyVal.int 1)]] []
        "p" =
      genKeyStr "f" [PyVal.dict [("a", PyVal.int 1), ("b", PyVal.int 2)]] []
        "p" ∧
    genKeyStr "f" [PyVal.list [PyVal.int 1, PyVal.int 2, PyVal.int 3]] []
        "p" ≠
      genKeyStr "f" [PyVal.list [PyVal.int 3, PyVal.int 2, PyVal.int 1]] []
        "p" :=
  ⟨C5_key_order_sensitivity.1 "p" "f"
      [PyVal.dict [("b", PyVal.int 2), ("a", PyVal.int 1)]]
      [PyVal.dict [("a", PyVal.int 1), ("b", PyVal.int 2)]] [] []
      (List.Forall₂.cons
        (⟨by decide, by decide,
          [("b", PyVal.int 2), ("a", PyVal.int 1)],
          List.Perm.swap ("b", PyVal.int 2) ("a", PyVal.int 1) [],
          rfl, rfl, rfl, rfl, trivial⟩ :
          pyEquiv (PyVal.dict [("b", PyVal.int 2), ("a", PyVal.int 1)])
            (PyVal.dict [("a", PyVal.int 1), ("b", PyVal.int 2)]))
        List.Forall₂.nil)
      (⟨rfl, rfl, [], List.Perm.nil, trivial⟩ :
        pyEquiv (PyVal.dict []) (PyVal.dict [])),
   C5_key_order_sensitivity.2 "p" "f" [] [] []
     [PyVal.int 1, PyVal.int 2, PyVal.int 3]
     [PyVal.int 3, PyVal.int 2, PyVal.int 1]
     (by decide) (by decide)
     (((List.Perm.cons (PyVal.int 1)
          (List.Perm.swap (PyVal.int 3) (PyVal.int 2) [])).trans
        (List.Perm.swap (PyVal.int 3) (PyVal.int 1) [PyVal.int 2])).trans
      (List.Perm.cons (PyVal.int 3)
        (List.Perm.swap (PyVal.int 2) (PyVal.int 1) [])))
     (fun h => absurd (show (1 : Int) = 3 from h.1)
       (by decide : ¬ ((1 : Int) = 3)))⟩

/-- C10: the key derivation is not injective on distinct argument lists:
an argument whose normalized form is the empty string is dropped by
`filter(None, key_parts)`, so `f('')` and `f()` share a key; and the `':'`
join delimiter makes `f(s, t)` collide with `f(s + ':' + t)` for non-empty
`s`, `t` — concretely, the distinct calls `f('a', 'b')` and `f('a:b')`
read and overwrite one shared cache entry. -/
theorem C10_key_not_injective :
    (∀ (pfx fname : String) (kwargs : List (String × PyVal)),
      genKeyStr fname [PyVal.str ""] kwargs pfx =
        genKeyStr fname [] kwargs pfx) ∧
    (∀ (pfx fname s t : String) (kwargs : List (String × PyVal)),
      s ≠ "" → t ≠ "" →
      genKeyStr fname [PyVal.str s, PyVal.str t] kwargs pfx =
        genKeyStr fname [PyVal.str (s ++ ":" ++ t)] kwargs pfx) ∧
    ([PyVal.str "a", PyVal.str "b"] ≠ [PyVal.str "a:b"] ∧
      genKeyStr "f" [PyVal.str "a", PyVal.str "b"] [] "p" =
        genKeyStr "f" [PyVal.str "a:b"] [] "p") :=
  ⟨fun pfx fname kwargs => genKeyStr_drop_empty_str pfx fname kwargs,
   fun pfx fname s t kwargs hs ht =>
     genKeyStr_colon_merge pfx fname s t kwargs hs ht,
   by simp, by decide⟩

/-- C10 (witness): the colon-collision instance at the concrete non-empty
strings `'a'` and `'b'`. -/
theorem C10_witness :
    ("a" : String) ≠ "" ∧ ("b" : String) ≠ "" ∧
    genKeyStr "f" [PyVal.str "a", PyVal.str "b"] [] "p" =
      genKeyStr "f" [PyVal.str "a:b"] [] "p" :=
  ⟨by decide, by decide,
   C10_key_not_injective.2.1 "p" "f" "a" "b" [] (by decide) (by decide)⟩

end Picker
